import Mathlib

/-!
Verification of the Go package `books`

A shallow embedding of books.go and client.go: the `Book` record, the
`Catalog` keyed store with its operations, the persistence of a catalog
through `Sync` and `OpenCatalog`, and the `Client` with `MakeAPIRequest`.

Modelling conventions.

* A Go `string` is a finite sequence of bytes (`GoString`), not necessarily
  valid UTF-8; the string literals of the examples are written through `utf8`.
* A Go `int` is a 64-bit two's complement integer (the size on 64-bit
  targets). Values are carried in `Int`; `wrapInt` is applied wherever the
  source does arithmetic, and `InRange` says that a value is a Go `int`.
* `map[string]Book` is an association list searched from the front, or `none`
  for the nil map. A list is a Go map when its keys are pairwise distinct
  (`NodupKeys`); the operations keep that property. `GetAllBooks` lists the
  values in the order of the list; Go leaves the order unspecified, and the
  statements about it are up to permutation.
* A method that assigns to the map returns an `Option`: `none` is the run-time
  panic of an assignment to an entry of a nil map, the only panic the methods
  can raise on a catalog built by `NewCatalog` or `OpenCatalog`.
* The lock `mu` is not part of the state: every operation holds it for its
  whole body, so an operation is one atomic step from a catalog to a catalog.
* A Go `error` built in books.go is a `CatalogError`, with one constructor for
  each place where books.go builds an error; `none` is Go's `nil` error.
* The file system is a table from paths to contents. The JSON text is the one
  of package encoding/json (Go 1.23, the release that has the `maps.Values`
  and `slices.Collect` used by books.go).
* The client takes `http.Get` and `json.Unmarshal` as parameters; the verb `%q`
  is `strconv.Quote`, with the table of printable runes above ASCII as a
  parameter.
-/

namespace Books

/-! ## Go strings and integers -/

/-- A byte. -/
abbrev Byte := Fin 256

/-- A Go string: a sequence of bytes, not necessarily valid UTF-8. -/
abbrev GoString := List Byte

/-- The constant `utf8.RuneError`, U+FFFD. -/
def RuneError : Nat := 0xFFFD

/-- The function `utf8.EncodeRune`: the UTF-8 encoding of a rune; a surrogate
or a value above U+10FFFF is encoded as `RuneError`. -/
def encodeRune (r : Nat) : List Byte :=
  if r < 0x80 then [Fin.ofNat r]
  else if r < 0x800 then [Fin.ofNat (0xC0 + r / 64), Fin.ofNat (0x80 + r % 64)]
  else if 0x10FFFF < r ∨ (0xD800 ≤ r ∧ r ≤ 0xDFFF) then [0xEF, 0xBF, 0xBD]
  else if r < 0x10000 then
    [Fin.ofNat (0xE0 + r / 4096), Fin.ofNat (0x80 + r / 64 % 64), Fin.ofNat (0x80 + r % 64)]
  else
    [Fin.ofNat (0xF0 + r / 262144), Fin.ofNat (0x80 + r / 4096 % 64),
      Fin.ofNat (0x80 + r / 64 % 64), Fin.ofNat (0x80 + r % 64)]

/-- A continuation byte, 0x80 to 0xBF. -/
def isCont (b : Byte) : Bool := decide (0x80 ≤ b.val ∧ b.val ≤ 0xBF)

/-- The second byte accepted after the first byte `b0` of a sequence of three
or four bytes (the table `acceptRanges` of package utf8). -/
def acceptSecond (b0 b1 : Byte) : Bool :=
  if b0.val = 0xE0 then decide (0xA0 ≤ b1.val ∧ b1.val ≤ 0xBF)
  else if b0.val = 0xED then decide (0x80 ≤ b1.val ∧ b1.val ≤ 0x9F)
  else if b0.val = 0xF0 then decide (0x90 ≤ b1.val ∧ b1.val ≤ 0xBF)
  else if b0.val = 0xF4 then decide (0x80 ≤ b1.val ∧ b1.val ≤ 0x8F)
  else isCont b1

/-- The function `utf8.DecodeRune`: the first rune of the bytes and its width;
`(RuneError, 0)` on no bytes and `(RuneError, 1)` on an invalid encoding. -/
def decodeRune : List Byte → Nat × Nat
  | [] => (RuneError, 0)
  | b0 :: rest =>
    if b0.val < 0x80 then (b0.val, 1)
    else if 0xC2 ≤ b0.val ∧ b0.val ≤ 0xDF then
      match rest with
      | b1 :: _ =>
        if isCont b1 then ((b0.val - 0xC0) * 64 + (b1.val - 0x80), 2) else (RuneError, 1)
      | [] => (RuneError, 1)
    else if 0xE0 ≤ b0.val ∧ b0.val ≤ 0xEF then
      match rest with
      | b1 :: b2 :: _ =>
        if acceptSecond b0 b1 && isCont b2 then
          ((b0.val - 0xE0) * 4096 + (b1.val - 0x80) * 64 + (b2.val - 0x80), 3)
        else (RuneError, 1)
      | _ => (RuneError, 1)
    else if 0xF0 ≤ b0.val ∧ b0.val ≤ 0xF4 then
      match rest with
      | b1 :: b2 :: b3 :: _ =>
        if acceptSecond b0 b1 && isCont b2 && isCont b3 then
          ((b0.val - 0xF0) * 262144 + (b1.val - 0x80) * 4096 + (b2.val - 0x80) * 64
            + (b3.val - 0x80), 4)
        else (RuneError, 1)
      | _ => (RuneError, 1)
    else (RuneError, 1)

/-- The loop of `utf8.ValidString`, run for at most `fuel` runes. -/
def validLoop : Nat → List Byte → Bool
  | _, [] => true
  | 0, _ :: _ => false
  | fuel + 1, b :: rest =>
    let (r, size) := decodeRune (b :: rest)
    if r = RuneError ∧ size = 1 then false else validLoop fuel ((b :: rest).drop size)

/-- The function `utf8.ValidString`: the bytes are a valid UTF-8 encoding. -/
def validString (s : GoString) : Bool := validLoop s.length s

/-- The Go string holding the UTF-8 encoding of a text. -/
def utf8 (s : String) : GoString :=
  s.toList.flatMap (fun c => encodeRune c.toNat)

/-- Smallest Go `int`. -/
def minInt : Int := -(2 ^ 63)

/-- Largest Go `int`. -/
def maxInt : Int := 2 ^ 63 - 1

/-- The value is a Go `int`. -/
def InRange (x : Int) : Prop := minInt ≤ x ∧ x ≤ maxInt

instance (x : Int) : Decidable (InRange x) := by
  unfold InRange; exact inferInstance

/-- Two's complement wrap-around of an arithmetic result to a Go `int`. -/
def wrapInt (x : Int) : Int := (x + 2 ^ 63) % 2 ^ 64 - 2 ^ 63

/-! ## Book -/

/-- The record `Book` of books.go. -/
structure Book where
  ID : GoString
  Title : GoString
  Author : GoString
  Copies : Int
deriving DecidableEq, Repr

/-- The zero value `Book{}`. -/
def Book.zero : Book := ⟨[], [], [], 0⟩

/-- The errors built in books.go. -/
inductive CatalogError where
  /-- `fmt.Errorf("negative number of copies: %d", copies)` -/
  | negativeCopies (copies : Int)
  /-- `fmt.Errorf("id %q already exists", book.ID)` -/
  | alreadyExists (id : GoString)
  /-- `fmt.Errorf("id %q not found", id)` -/
  | notFound (id : GoString)
  /-- `fmt.Errorf("%w: %d", ErrNotEnoughStock, book.Copies)` -/
  | notEnoughStock (copies : Int)
deriving DecidableEq, Repr

/-- The test `errors.Is(err, ErrNotEnoughStock)`: only the error built with
`%w` around the sentinel wraps it. -/
def CatalogError.IsErrNotEnoughStock : CatalogError → Bool
  | .notEnoughStock _ => true
  | _ => false

/-- The method `(book *Book) SetCopies(copies int) error`: the receiver after
the call and the returned error. -/
def Book.SetCopies (book : Book) (copies : Int) : Book × Option CatalogError :=
  if copies < 0 then (book, some (.negativeCopies copies))
  else ({ book with Copies := copies }, none)

/-! ## The map of a catalog -/

/-- The index expression `data[key]` with the comma-ok form. -/
def mapGet : List (GoString × Book) → GoString → Option Book
  | [], _ => none
  | (k, b) :: rest, key => if k = key then some b else mapGet rest key

/-- The assignment `data[key] = book`. -/
def mapSet : List (GoString × Book) → GoString → Book → List (GoString × Book)
  | [], key, book => [(key, book)]
  | (k, b) :: rest, key, book =>
    if k = key then (key, book) :: rest else (k, b) :: mapSet rest key book

/-- The keys of a Go map are pairwise distinct. -/
def NodupKeys (data : List (GoString × Book)) : Prop := (data.map Prod.fst).Nodup

/-! ## Catalog -/

/-- The record `Catalog` of books.go, without its lock. The field `data` is
`none` when the map is nil. -/
structure Catalog where
  data : Option (List (GoString × Book))
  Path : GoString
deriving DecidableEq, Repr

/-- The constructor `NewCatalog()`: an allocated, empty map and no path. -/
def NewCatalog : Catalog := ⟨some [], []⟩

/-- The entries of the map `data`. A nil map has none; Go allows reading it. -/
def Catalog.entries (catalog : Catalog) : List (GoString × Book) :=
  match catalog.data with
  | some data => data
  | none => []

/-- The statement `catalog.data[key] = book`: the catalog after it, or `none`
for the run-time panic of an assignment to an entry of a nil map. -/
def Catalog.assign (catalog : Catalog) (key : GoString) (book : Book) : Option Catalog :=
  match catalog.data with
  | some data => some { catalog with data := some (mapSet data key book) }
  | none => none

/-- The method `GetAllBooks()`: the values of the map, in the order the map
yields them. -/
def Catalog.GetAllBooks (catalog : Catalog) : List Book :=
  catalog.entries.map Prod.snd

/-- The method `GetBook(id)`. -/
def Catalog.GetBook (catalog : Catalog) (id : GoString) : Book × Bool :=
  match mapGet catalog.entries id with
  | some book => (book, true)
  | none => (Book.zero, false)

/-- The method `AddBook(book)`: the catalog after the call and the error, or
`none` when the call panics. -/
def Catalog.AddBook (catalog : Catalog) (book : Book) :
    Option (Catalog × Option CatalogError) :=
  match mapGet catalog.entries book.ID with
  | some _ => some (catalog, some (.alreadyExists book.ID))
  | none =>
    match catalog.assign book.ID book with
    | some catalog => some (catalog, none)
    | none => none

/-- The method `AddCopies(id, copies)`: the catalog after the call, the
returned count and the error, or `none` when the call panics. -/
def Catalog.AddCopies (catalog : Catalog) (id : GoString) (copies : Int) :
    Option (Catalog × Int × Option CatalogError) :=
  match mapGet catalog.entries id with
  | none => some (catalog, 0, some (.notFound id))
  | some book =>
    let book := { book with Copies := wrapInt (book.Copies + copies) }
    match catalog.assign book.ID book with
    | some catalog => some (catalog, book.Copies, none)
    | none => none

/-- The method `SubCopies(id, copies)`: the catalog after the call, the
returned count and the error, or `none` when the call panics. -/
def Catalog.SubCopies (catalog : Catalog) (id : GoString) (copies : Int) :
    Option (Catalog × Int × Option CatalogError) :=
  match mapGet catalog.entries id with
  | none => some (catalog, 0, some (.notFound id))
  | some book =>
    if book.Copies < copies then some (catalog, 0, some (.notEnoughStock book.Copies))
    else
      let book := { book with Copies := wrapInt (book.Copies - copies) }
      match catalog.assign book.ID book with
      | some catalog => some (catalog, book.Copies, none)
      | none => none

/-- The method `GetCopies(id)`. -/
def Catalog.GetCopies (catalog : Catalog) (id : GoString) : Int × Option CatalogError :=
  match mapGet catalog.entries id with
  | none => (0, some (.notFound id))
  | some book => (book.Copies, none)

/-- The method `SetCopies(id, copies)` of the catalog: the catalog after the
call and the error, or `none` when the call panics. -/
def Catalog.SetCopies (catalog : Catalog) (id : GoString) (copies : Int) :
    Option (Catalog × Option CatalogError) :=
  match mapGet catalog.entries id with
  | none => some (catalog, some (.notFound id))
  | some book =>
    match book.SetCopies copies with
    | (_, some err) => some (catalog, some err)
    | (book, none) =>
      match catalog.assign book.ID book with
      | some catalog => some (catalog, none)
      | none => none

/-! ## Sequences of public operations -/

/-- A call of one of the four mutating methods. -/
inductive Op where
  | addBook (book : Book)
  | addCopies (id : GoString) (copies : Int)
  | subCopies (id : GoString) (copies : Int)
  | setCopies (id : GoString) (copies : Int)
deriving DecidableEq, Repr

/-- The catalog after one call, or `none` when the call panics. -/
def Catalog.step (catalog : Catalog) : Op → Option Catalog
  | .addBook book => (catalog.AddBook book).map (fun r => r.1)
  | .addCopies id copies => (catalog.AddCopies id copies).map (fun r => r.1)
  | .subCopies id copies => (catalog.SubCopies id copies).map (fun r => r.1)
  | .setCopies id copies => (catalog.SetCopies id copies).map (fun r => r.1)

/-- The catalog after a sequence of calls, or `none` when one of them panics. -/
def Catalog.run (catalog : Catalog) : List Op → Option Catalog
  | [] => some catalog
  | op :: ops =>
    match catalog.step op with
    | some next => next.run ops
    | none => none

/-- Every stored book has a non-negative number of copies. -/
def NonNegCopies (catalog : Catalog) : Prop :=
  ∀ kb ∈ catalog.entries, 0 ≤ kb.2.Copies

instance (catalog : Catalog) : Decidable (NonNegCopies catalog) := by
  unfold NonNegCopies; exact inferInstance

/-- The number of copies of every stored book is a non-negative Go `int`. -/
def CopiesOK (catalog : Catalog) : Prop :=
  ∀ kb ∈ catalog.entries, 0 ≤ kb.2.Copies ∧ kb.2.Copies ≤ maxInt

instance (catalog : Catalog) : Decidable (CopiesOK catalog) := by
  unfold CopiesOK; exact inferInstance

/-- A call that passes Go `int`s and does not take a count out of the range
from 0 to `maxInt`: `AddBook` inserts a count in that range, `AddCopies` gives
a sum in that range, `SubCopies` a difference of at most `maxInt`. -/
def Op.admissible (catalog : Catalog) : Op → Bool
  | .addBook book => decide (0 ≤ book.Copies ∧ book.Copies ≤ maxInt)
  | .addCopies id copies =>
    match mapGet catalog.entries id with
    | some book => decide (0 ≤ book.Copies + copies ∧ book.Copies + copies ≤ maxInt)
    | none => true
  | .subCopies id copies =>
    match mapGet catalog.entries id with
    | some book => decide (book.Copies - copies ≤ maxInt)
    | none => true
  | .setCopies _ copies => decide (copies ≤ maxInt)

/-- Every call of the sequence is admissible in the catalog it is applied to. -/
def admissible (catalog : Catalog) : List Op → Bool
  | [] => true
  | op :: ops =>
    op.admissible catalog &&
      (match catalog.step op with
        | some next => admissible next ops
        | none => true)

/-! ## The JSON text written by `Sync` and read by `OpenCatalog`

`Sync` calls `json.NewEncoder(file).Encode(catalog.data)` and `OpenCatalog` calls
`json.NewDecoder(file).Decode(&catalog.data)`. The definitions below follow
package encoding/json for the type `map[string]Book`: the encoder in full, the
decoder on the compact layout that the encoder writes (no white space, the
four fields in declaration order) and on the value `null`; on any other text
the decoder of this development gives no result. -/

/-- The digit of `hex = "0123456789abcdef"` at index `n`. -/
def hexDigit (n : Nat) : Byte :=
  if n < 10 then Fin.ofNat (0x30 + n) else Fin.ofNat (0x57 + n)

/-- The table `htmlSafeSet`: the ASCII bytes written without escaping when
HTML escaping is on (the setting of `json.NewEncoder`). -/
def htmlSafe (b : Byte) : Bool :=
  decide (0x20 ≤ b.val ∧ b.val < 0x80 ∧ b.val ≠ 0x22 ∧ b.val ≠ 0x26 ∧ b.val ≠ 0x3C
    ∧ b.val ≠ 0x3E ∧ b.val ≠ 0x5C)

/-- The escape written for an ASCII byte outside `htmlSafeSet`. -/
def escapeByte (b : Byte) : List Byte :=
  if b.val = 0x5C ∨ b.val = 0x22 then [0x5C, b]
  else if b.val = 0x08 then [0x5C, 0x62]
  else if b.val = 0x0C then [0x5C, 0x66]
  else if b.val = 0x0A then [0x5C, 0x6E]
  else if b.val = 0x0D then [0x5C, 0x72]
  else if b.val = 0x09 then [0x5C, 0x74]
  else [0x5C, 0x75, 0x30, 0x30, hexDigit (b.val / 16), hexDigit (b.val % 16)]

/-- The loop of `appendString`, run for at most `fuel` steps: safe ASCII and
valid runes are copied, an invalid byte becomes the escape of U+FFFD, U+2028 and
U+2029 are escaped. -/
def appendStringLoop : Nat → List Byte → List Byte
  | _, [] => []
  | 0, _ :: _ => []
  | fuel + 1, b :: rest =>
    if b.val < 0x80 then
      if htmlSafe b then b :: appendStringLoop fuel rest
      else escapeByte b ++ appendStringLoop fuel rest
    else
      let (c, size) := decodeRune (b :: rest)
      if c = RuneError ∧ size = 1 then
        [0x5C, 0x75, 0x66, 0x66, 0x66, 0x64] ++ appendStringLoop fuel rest
      else if c = 0x2028 ∨ c = 0x2029 then
        [0x5C, 0x75, 0x32, 0x30, 0x32, hexDigit (c % 16)]
          ++ appendStringLoop fuel ((b :: rest).drop size)
      else (b :: rest).take size ++ appendStringLoop fuel ((b :: rest).drop size)

/-- The function `appendString` of encoding/json: a Go string as a JSON string
literal. -/
def appendString (s : GoString) : List Byte :=
  0x22 :: (appendStringLoop s.length s ++ [0x22])

/-- The loop of `strconv.AppendInt` for a non-negative value: its decimal
digits. -/
def digitsLoop : Nat → Nat → List Byte
  | 0, _ => []
  | fuel + 1, n =>
    if n < 10 then [Fin.ofNat (0x30 + n)]
    else digitsLoop fuel (n / 10) ++ [Fin.ofNat (0x30 + n % 10)]

/-- The function `strconv.AppendInt(dst, n, 10)` for a Go `int`, which has at
most twenty digits. -/
def appendInt (n : Int) : List Byte :=
  if n < 0 then 0x2D :: digitsLoop 20 n.natAbs else digitsLoop 20 n.natAbs

/-- The JSON object written for a `Book`. -/
def encodeBook (book : Book) : List Byte :=
  utf8 "\x7b\"ID\":" ++ appendString book.ID ++ utf8 ",\"Title\":" ++ appendString book.Title
    ++ utf8 ",\"Author\":" ++ appendString book.Author
    ++ utf8 ",\"Copies\":" ++ appendInt book.Copies ++ utf8 "\x7d"

/-- The order `strings.Compare(a, b) <= 0` on keys: byte-wise lexicographic. -/
def keyLe : GoString → GoString → Bool
  | [], _ => true
  | _ :: _, [] => false
  | a :: s, b :: t => if a.val < b.val then true else if b.val < a.val then false else keyLe s t

/-- Insertion of an entry into a list ordered by key. -/
def insertEntry (e : GoString × Book) : List (GoString × Book) → List (GoString × Book)
  | [] => [e]
  | x :: xs => if keyLe e.1 x.1 then e :: x :: xs else x :: insertEntry e xs

/-- The entries of a map in the order of their keys, as the encoder visits them. -/
def sortEntries : List (GoString × Book) → List (GoString × Book)
  | [] => []
  | e :: es => insertEntry e (sortEntries es)

/-- The members of the JSON object written for a map, separated by commas. -/
def encodeEntries : List (GoString × Book) → List Byte
  | [] => []
  | [e] => appendString e.1 ++ 0x3A :: encodeBook e.2
  | e :: es => appendString e.1 ++ 0x3A :: encodeBook e.2 ++ 0x2C :: encodeEntries es

/-- The value of a hexadecimal digit. -/
def fromHex (b : Byte) : Option Nat :=
  if 0x30 ≤ b.val ∧ b.val ≤ 0x39 then some (b.val - 0x30)
  else if 0x61 ≤ b.val ∧ b.val ≤ 0x66 then some (b.val - 0x57)
  else if 0x41 ≤ b.val ∧ b.val ≤ 0x46 then some (b.val - 0x37)
  else none

/-- The function `getu4` on the bytes after `\u`: the value of four
hexadecimal digits and the remaining bytes. -/
def getu4 : List Byte → Option (Nat × List Byte)
  | a :: b :: c :: d :: rest =>
    match fromHex a, fromHex b, fromHex c, fromHex d with
    | some x, some y, some z, some w => some (x * 4096 + y * 256 + z * 16 + w, rest)
    | _, _, _, _ => none
  | _ => none

/-- Bytes put in front of the string decoded from the rest of a literal. -/
def prepend (p : List Byte) : Option (GoString × List Byte) → Option (GoString × List Byte)
  | some (t, rest) => some (p ++ t, rest)
  | none => none

/-- The loop of `unquoteBytes` on the bytes after the opening quote, for at
most `fuel` steps: the decoded string and the bytes after the closing quote.
Escapes are replaced, a `\u` pair of surrogates gives one rune, and bytes that
are not valid UTF-8 are coerced to `RuneError`. -/
def unquoteLoop : Nat → List Byte → Option (GoString × List Byte)
  | 0, _ => none
  | _ + 1, [] => none
  | fuel + 1, c :: s =>
    if c.val = 0x22 then some ([], s)
    else if c.val = 0x5C then
      match s with
      | [] => none
      | e :: s1 =>
        if e.val = 0x22 ∨ e.val = 0x5C ∨ e.val = 0x2F then prepend [e] (unquoteLoop fuel s1)
        else if e.val = 0x62 then prepend [0x08] (unquoteLoop fuel s1)
        else if e.val = 0x66 then prepend [0x0C] (unquoteLoop fuel s1)
        else if e.val = 0x6E then prepend [0x0A] (unquoteLoop fuel s1)
        else if e.val = 0x72 then prepend [0x0D] (unquoteLoop fuel s1)
        else if e.val = 0x74 then prepend [0x09] (unquoteLoop fuel s1)
        else if e.val = 0x75 then
          match getu4 s1 with
          | none => none
          | some (rr, s2) =>
            if 0xD800 ≤ rr ∧ rr ≤ 0xDFFF then
              match s2 with
              | e1 :: e2 :: s3 =>
                if e1.val = 0x5C ∧ e2.val = 0x75 then
                  match getu4 s3 with
                  | some (rr1, s4) =>
                    if rr < 0xDC00 ∧ 0xDC00 ≤ rr1 ∧ rr1 ≤ 0xDFFF then
                      prepend (encodeRune ((rr - 0xD800) * 1024 + (rr1 - 0xDC00) + 0x10000))
                        (unquoteLoop fuel s4)
                    else prepend (encodeRune RuneError) (unquoteLoop fuel s2)
                  | none => prepend (encodeRune RuneError) (unquoteLoop fuel s2)
                else prepend (encodeRune RuneError) (unquoteLoop fuel s2)
              | _ => prepend (encodeRune RuneError) (unquoteLoop fuel s2)
            else prepend (encodeRune rr) (unquoteLoop fuel s2)
        else none
    else if c.val < 0x20 then none
    else if c.val < 0x80 then prepend [c] (unquoteLoop fuel s)
    else
      let (rr, size) := decodeRune (c :: s)
      prepend (encodeRune rr) (unquoteLoop fuel ((c :: s).drop size))

/-- A JSON string literal at the head of the input, decoded into a Go string. -/
def parseString : List Byte → Option (GoString × List Byte)
  | [] => none
  | q :: s => if q.val = 0x22 then unquoteLoop (s.length) s else none

/-- A decimal digit. -/
def isDigit (b : Byte) : Bool := decide (0x30 ≤ b.val ∧ b.val ≤ 0x39)

/-- The value of the longest run of digits at the head of the input. -/
def parseDigits : List Byte → Nat → Nat × List Byte
  | [], acc => (acc, [])
  | b :: rest, acc =>
    if isDigit b then parseDigits rest (acc * 10 + (b.val - 0x30)) else (acc, b :: rest)

/-- A JSON number at the head of the input, decoded into a field of type
`int`: an optional minus sign and digits without a leading zero; a fraction,
an exponent or a value that is no Go `int` is refused. -/
def parseInt (s : List Byte) : Option (Int × List Byte) :=
  let neg := decide (s.head? = some 0x2D)
  let ds := if neg then s.drop 1 else s
  match ds with
  | [] => none
  | d :: more =>
    if !isDigit d then none
    else if d.val = 0x30 ∧ (more.head?.map isDigit = some true) then none
    else
      let (n, rest) := parseDigits ds 0
      if rest.head? = some 0x2E ∨ rest.head? = some 0x65 ∨ rest.head? = some 0x45 then none
      else
        let v : Int := if neg then -(n : Int) else (n : Int)
        if InRange v then some (v, rest) else none

/-- The given bytes at the head of the input. -/
def expect : List Byte → List Byte → Option (List Byte)
  | [], s => some s
  | _ :: _, [] => none
  | c :: lit, b :: s => if c = b then expect lit s else none

/-- A JSON object in the layout of `encodeBook`, decoded into a `Book`. -/
def parseBook (s : List Byte) : Option (Book × List Byte) := do
  let s ← expect (utf8 "\x7b\"ID\":") s
  let (id, s) ← parseString s
  let s ← expect (utf8 ",\"Title\":") s
  let (title, s) ← parseString s
  let s ← expect (utf8 ",\"Author\":") s
  let (author, s) ← parseString s
  let s ← expect (utf8 ",\"Copies\":") s
  let (copies, s) ← parseInt s
  let s ← expect (utf8 "\x7d") s
  pure (⟨id, title, author, copies⟩, s)

/-- The members of a JSON object up to its closing brace, for at most `fuel`
members. -/
def parseEntries : Nat → List Byte → Option (List (GoString × Book) × List Byte)
  | 0, _ => none
  | fuel + 1, s => do
    let (key, s) ← parseString s
    let s ← expect [0x3A] s
    let (book, s) ← parseBook s
    match s with
    | [] => none
    | c :: s =>
      if c.val = 0x2C then do
        let (es, s) ← parseEntries fuel s
        pure ((key, book) :: es, s)
      else if c.val = 0x7D then pure ([(key, book)], s)
      else none

/-- A white space byte of JSON: space, tab, line feed or carriage return. -/
def isSpace (b : Byte) : Bool :=
  decide (b.val = 0x20 ∨ b.val = 0x09 ∨ b.val = 0x0A ∨ b.val = 0x0D)

/-- The input is the literal `null`, at the end of the input or followed by
white space. -/
def isNullLiteral (s : List Byte) : Bool :=
  match expect (utf8 "null") s with
  | some [] => true
  | some (b :: _) => isSpace b
  | none => false

/-- The text written by `Encoder.Encode(data)`: `null` for a nil map, else the
object with its keys in order; a newline follows. -/
def encodeData : Option (List (GoString × Book)) → List Byte
  | none => utf8 "null\n"
  | some data => 0x7B :: encodeEntries (sortEntries data) ++ [0x7D, 0x0A]

/-- The first JSON value of the input, decoded into the map `data` as
`Decoder.Decode(&data)` does. For an object, the members are assigned in the
order of the text to the map (allocated when it was nil), a later member
replacing an earlier one with the same key. For `null`, the map is set to nil.
Bytes after the value are not read. The result is `none` on any other text. -/
def decodeData (data : Option (List (GoString × Book))) (s : List Byte) :
    Option (Option (List (GoString × Book))) :=
  match s with
  | o :: c :: rest =>
    if o.val = 0x7B then
      if c.val = 0x7D then some (some (data.getD []))
      else
        match parseEntries s.length (c :: rest) with
        | some (es, _) => some (some (es.foldl (fun m e => mapSet m e.1 e.2) (data.getD [])))
        | none => none
    else if isNullLiteral s then some none
    else none
  | _ => none

/-! ## Files, Sync and OpenCatalog -/

/-- The part of the file system that `os.Open` and `os.Create` see. -/
structure FileSystem where
  /-- The content of each file that `os.Open` opens. -/
  files : GoString → Option (List Byte)
  /-- The paths at which `os.Create` succeeds. -/
  creatable : GoString → Bool

/-- The method `Sync()`: the file system after the call and whether the call
returned an error (`false` is the `nil` error). -/
def Catalog.Sync (catalog : Catalog) (fs : FileSystem) : FileSystem × Bool :=
  if fs.creatable catalog.Path then
    ({ fs with files := fun p =>
        if p = catalog.Path then some (encodeData catalog.data) else fs.files p }, false)
  else (fs, true)

/-- The function `OpenCatalog(path)`: the catalog returned with a `nil` error,
or `none` when an error is returned. -/
def OpenCatalog (fs : FileSystem) (path : GoString) : Option Catalog :=
  match fs.files path with
  | none => none
  | some content =>
    match decodeData NewCatalog.data content with
    | none => none
    | some data => some { data := data, Path := path }

/-! ## Well-formed maps and entries -/

instance (data : List (GoString × Book)) : Decidable (NodupKeys data) := by
  unfold NodupKeys; exact inferInstance

/-- The strings of the book are valid UTF-8 and its count is a Go int. -/
def Book.Encodable (book : Book) : Prop :=
  validString book.ID = true ∧ validString book.Title = true
    ∧ validString book.Author = true ∧ InRange book.Copies

instance (book : Book) : Decidable book.Encodable := by
  unfold Book.Encodable; exact inferInstance

/-- The key and the book of an entry can be written and read back. -/
def EntryOK (e : GoString × Book) : Prop := validString e.1 = true ∧ e.2.Encodable

instance (e : GoString × Book) : Decidable (EntryOK e) := by
  unfold EntryOK; exact inferInstance

/-! ## Values used in the examples -/

/-- The book of the tests with identifier `abc` and one copy. -/
def bookABC : Book :=
  ⟨utf8 "abc", utf8 "In the Company of Cheeful Ladies", utf8 "Alexander McCall Smith", 1⟩

/-- The catalog holding only `bookABC`, as `AddBook` builds it from
`NewCatalog()`. -/
def catalogABC : Catalog := ⟨some [(utf8 "abc", bookABC)], []⟩

/-- Another book with identifier `abc`. -/
def bookEmma : Book := ⟨utf8 "abc", utf8 "Emma", utf8 "Jane Austen", 7⟩

/-- A book with identifier `n` and -1 copies. -/
def bookNegative : Book := ⟨utf8 "n", [], [], -1⟩

/-- A book with identifier `m` and the largest Go int as number of copies. -/
def bookMax : Book := ⟨utf8 "m", [], [], maxInt⟩

/-- The four calls of the witness of C1. -/
def opsABC : List Op :=
  [.addBook bookABC, .addCopies (utf8 "abc") 2, .subCopies (utf8 "abc") 3,
    .setCopies (utf8 "abc") 5]

/-- A file system with two files: `/c`, whose single member has key `a` and
holds a book with `ID` `x`, and `/n`, which holds the JSON value `null`. -/
def fsFiles : FileSystem :=
  { files := fun p =>
      if p = utf8 "/c" then
        some (utf8 "\x7b\"a\":\x7b\"ID\":\"x\",\"Title\":\"T\",\"Author\":\"U\",\"Copies\":1\x7d\x7d\n")
      else if p = utf8 "/n" then some (utf8 "null\n")
      else none,
    creatable := fun _ => false }

/-- The catalog that `OpenCatalog` builds from the file `/c` of `fsFiles`. -/
def catalogMislabelled : Catalog :=
  ⟨some [(utf8 "a", ⟨utf8 "x", utf8 "T", utf8 "U", 1⟩)], utf8 "/c"⟩

/-- The catalog that `OpenCatalog` builds from the file `/n` of `fsFiles`: its
map is nil. -/
def catalogNil : Catalog := ⟨none, utf8 "/n"⟩

/-- A file system without files in which every path can be created. -/
def fsEmpty : FileSystem := ⟨fun _ => none, fun _ => true⟩

/-- A catalog of two books whose texts need escaping, at path `/c`. -/
def catalogTwo : Catalog :=
  ⟨some [(utf8 "xyz", ⟨utf8 "xyz", utf8 "<é\n", utf8 "D \"S\"", -2⟩),
    (utf8 "abc", ⟨utf8 "abc", utf8 "€", [], 1⟩)], utf8 "/c"⟩

/-- A catalog whose only book has the title of one byte 0xFF, which is not
valid UTF-8. -/
def catalogInvalid : Catalog :=
  ⟨some [(utf8 "k", ⟨utf8 "k", [0xFF], [], 1⟩)], utf8 "/c"⟩

/-! ## Catalogs built through the public interface -/

/-- Every entry of the map is stored under the `ID` of its book. -/
def KeyedByID (data : List (GoString × Book)) : Prop := ∀ kb ∈ data, kb.1 = kb.2.ID

instance (data : List (GoString × Book)) : Decidable (KeyedByID data) := by
  unfold KeyedByID; exact inferInstance

/-- A catalog obtained through the public interface: from `NewCatalog()` or
`OpenCatalog(path)`, by calls of the mutating methods that return, and by
assignments to the exported field `Path`. The reading methods and `Sync` leave
the catalog as it is. -/
inductive Built : Catalog → Prop where
  | new : Built NewCatalog
  | opened (fs : FileSystem) (path : GoString) (catalog : Catalog) :
      OpenCatalog fs path = some catalog → Built catalog
  | call (catalog next : Catalog) (op : Op) :
      Built catalog → catalog.step op = some next → Built next
  | path (catalog : Catalog) (p : GoString) :
      Built catalog → Built { catalog with Path := p }

/-- The `ID` fields of the books that `GetAllBooks()` returns. -/
def Catalog.ids (catalog : Catalog) : List GoString :=
  catalog.GetAllBooks.map (fun book => book.ID)

/-- A file system with one file, `/d`, whose two members `a` and `b` both hold
a book with `ID` `x`. -/
def fsTwins : FileSystem :=
  { files := fun p =>
      if p = utf8 "/d" then
        some (utf8 ("\x7b\"a\":\x7b\"ID\":\"x\",\"Title\":\"T\",\"Author\":\"U\",\"Copies\":1\x7d,"
          ++ "\"b\":\x7b\"ID\":\"x\",\"Title\":\"V\",\"Author\":\"W\",\"Copies\":2\x7d\x7d\n"))
      else none,
    creatable := fun _ => false }

/-- The catalog that `OpenCatalog` builds from the file `/d` of `fsTwins`. -/
def catalogTwins : Catalog :=
  ⟨some [(utf8 "a", ⟨utf8 "x", utf8 "T", utf8 "U", 1⟩),
    (utf8 "b", ⟨utf8 "x", utf8 "V", utf8 "W", 2⟩)], utf8 "/d"⟩

/-- The book of the tests with identifier `xyz` and two copies. -/
def bookXYZ : Book := ⟨utf8 "xyz", utf8 "White Heat", utf8 "Dominic Sandbrook", 2⟩

/-- The catalog of the tests, as `getTestCatalog` builds it. -/
def catalogTest : Catalog := ⟨some [(utf8 "abc", bookABC), (utf8 "xyz", bookXYZ)], []⟩

/-- What a call on `id` may change between `before` and `after`: the keys are
the same, the record under every other key is the same, and the record under
`id` keeps the `ID`, `Title` and `Author` of `book`. -/
def OnlyCopiesChanged (before after : Catalog) (id : GoString) (book : Book) : Prop :=
  after.entries.map Prod.fst = before.entries.map Prod.fst
  ∧ (∀ other, other ≠ id → mapGet after.entries other = mapGet before.entries other)
  ∧ ∃ stored, mapGet after.entries id = some stored ∧ stored.ID = book.ID
      ∧ stored.Title = book.Title ∧ stored.Author = book.Author

/-! ## Formatting: `fmt.Sprintf` and `strconv.Quote` -/

/-- An operand of `fmt.Sprintf`: a string or an int. -/
inductive FmtArg where
  | str (s : GoString)
  | int (n : Int)
deriving DecidableEq, Repr

/-- The text of an operand under the verb with letter `verb`: `%v` prints a
string as it is and an int in decimal, `%s` is for strings and `%d` for ints;
`none` for another verb or another kind of operand. -/
def FmtArg.format (verb : Byte) : FmtArg → Option GoString
  | .str s => if verb.val = 0x76 ∨ verb.val = 0x73 then some s else none
  | .int n => if verb.val = 0x76 ∨ verb.val = 0x64 then some (appendInt n) else none

/-- The function `fmt.Sprintf(format, args...)` for a format whose verbs are
`%v`, `%s` and `%d` without flags, with one operand of the right kind for each
verb: the bytes of the format are copied and each verb is replaced by the text
of the next operand. The result is `none` on any other format or operands. -/
def Sprintf : List Byte → List FmtArg → Option GoString
  | [], [] => some []
  | [], _ :: _ => none
  | [c], args => if c.val = 0x25 then none else (Sprintf [] args).map (fun s => c :: s)
  | c :: v :: rest, args =>
    if c.val = 0x25 then
      match args with
      | [] => none
      | a :: args =>
        match a.format v, Sprintf rest args with
        | some text, some s => some (text ++ s)
        | _, _ => none
    else (Sprintf (v :: rest) args).map (fun s => c :: s)

/-- The method `(book Book) String()`:
`fmt.Sprintf("%v by %v (copies: %v)", book.Title, book.Author, book.Copies)`. -/
def Book.String (book : Book) : GoString :=
  match Sprintf (utf8 "%v by %v (copies: %v)")
      [.str book.Title, .str book.Author, .int book.Copies] with
  | some s => s
  | none => []

/-- The function `strconv.IsPrint` on a rune. It is computed here for ASCII;
the table of the printable runes above ASCII is the parameter `isPrint`. -/
def goIsPrint (isPrint : Nat → Bool) (r : Nat) : Bool :=
  if r < 0x80 then decide (0x20 ≤ r ∧ r ≤ 0x7E) else isPrint r

/-- The function `appendEscapedRune` of package strconv for the quote `"`. -/
def escapeRune (isPrint : Nat → Bool) (r : Nat) : List Byte :=
  if r = 0x22 ∨ r = 0x5C then [0x5C, Fin.ofNat r]
  else if goIsPrint isPrint r then encodeRune r
  else if r = 0x07 then [0x5C, 0x61]
  else if r = 0x08 then [0x5C, 0x62]
  else if r = 0x0C then [0x5C, 0x66]
  else if r = 0x0A then [0x5C, 0x6E]
  else if r = 0x0D then [0x5C, 0x72]
  else if r = 0x09 then [0x5C, 0x74]
  else if r = 0x0B then [0x5C, 0x76]
  else if r < 0x20 ∨ r = 0x7F then [0x5C, 0x78, hexDigit (r / 16), hexDigit (r % 16)]
  else if 0x10FFFF < r ∨ (0xD800 ≤ r ∧ r ≤ 0xDFFF) then [0x5C, 0x75, 0x66, 0x66, 0x66, 0x64]
  else if r < 0x10000 then
    [0x5C, 0x75, hexDigit (r / 4096 % 16), hexDigit (r / 256 % 16), hexDigit (r / 16 % 16),
      hexDigit (r % 16)]
  else
    [0x5C, 0x55, hexDigit (r / 268435456 % 16), hexDigit (r / 16777216 % 16),
      hexDigit (r / 1048576 % 16), hexDigit (r / 65536 % 16), hexDigit (r / 4096 % 16),
      hexDigit (r / 256 % 16), hexDigit (r / 16 % 16), hexDigit (r % 16)]

/-- The loop of `strconv.Quote`, run for at most `fuel` runes: a byte that is
no valid UTF-8 is written `\x` and two digits, a rune is written by
`escapeRune`. -/
def quoteLoop (isPrint : Nat → Bool) : Nat → List Byte → List Byte
  | _, [] => []
  | 0, _ :: _ => []
  | fuel + 1, b :: rest =>
    let (r, width) := decodeRune (b :: rest)
    if width = 1 ∧ r = RuneError then
      [0x5C, 0x78, hexDigit (b.val / 16), hexDigit (b.val % 16)] ++ quoteLoop isPrint fuel rest
    else escapeRune isPrint r ++ quoteLoop isPrint fuel ((b :: rest).drop width)

/-- The verb `%q` on a string or a byte slice: `strconv.Quote`. -/
def quote (isPrint : Nat → Bool) (s : List Byte) : GoString :=
  0x22 :: (quoteLoop isPrint s.length s ++ [0x22])

/-- A byte that `strconv.Quote` copies: printable ASCII other than the double
quote and the backslash. -/
def isPlain (b : Byte) : Bool :=
  decide (0x20 ≤ b.val ∧ b.val ≤ 0x7E ∧ b.val ≠ 0x22 ∧ b.val ≠ 0x5C)

/-- The text of the sentinel `ErrNotEnoughStock = errors.New("not enough stock")`. -/
def ErrNotEnoughStock : GoString := utf8 "not enough stock"

/-- The method `Error()` of an error of the catalog: the text that `fmt.Errorf`
builds. The verb `%d` writes an `int` as `strconv.AppendInt` does, the verb
`%q` quotes a string as `strconv.Quote` does, and the verb `%w` writes the
text of the wrapped error. -/
def CatalogError.Error (isPrint : Nat → Bool) : CatalogError → GoString
  | .negativeCopies copies => utf8 "negative number of copies: " ++ appendInt copies
  | .alreadyExists id => utf8 "id " ++ quote isPrint id ++ utf8 " already exists"
  | .notFound id => utf8 "id " ++ quote isPrint id ++ utf8 " not found"
  | .notEnoughStock copies => ErrNotEnoughStock ++ utf8 ": " ++ appendInt copies

/-! ## Client -/

/-- The record `Client` of client.go. -/
structure Client where
  addr : GoString
deriving DecidableEq, Repr

/-- The constructor `NewClient(addr)`. -/
def NewClient (addr : GoString) : Client := ⟨addr⟩

/-- The part of the `*http.Response` that `MakeAPIRequest` reads: the status
code, and the bytes that `io.ReadAll(resp.Body)` returns or the text of its
error. -/
structure Response where
  StatusCode : Int
  Body : Except GoString (List Byte)

/-- The errors that `MakeAPIRequest` returns. -/
inductive ClientError where
  /-- The error of `http.Get`, returned as it is. -/
  | transport (text : GoString)
  /-- `errors.New("not found")` -/
  | notFound
  /-- `fmt.Errorf("unexpected status %d", resp.StatusCode)` -/
  | unexpectedStatus (code : Int)
  /-- The error of `io.ReadAll`, returned as it is. -/
  | read (text : GoString)
  /-- `fmt.Errorf("%v in %q", err, data)` for the error `err` of `json.Unmarshal` -/
  | decode (text : GoString) (data : List Byte)
deriving DecidableEq, Repr

/-- The method `Error()` of an error of the client. -/
def ClientError.Error (isPrint : Nat → Bool) : ClientError → GoString
  | .transport text => text
  | .notFound => utf8 "not found"
  | .unexpectedStatus code => utf8 "unexpected status " ++ appendInt code
  | .read text => text
  | .decode text data => text ++ utf8 " in " ++ quote isPrint data

/-- The address that `MakeAPIRequest` passes to `http.Get`. -/
def Client.url (client : Client) (uri : GoString) : GoString :=
  utf8 "http://" ++ client.addr ++ utf8 "/v1/" ++ uri

/-- The method `MakeAPIRequest(uri, result)`: the value behind `result` after
the call and the error. The parameters stand for the library: `httpGet` is
`http.Get`, which gives a response or the text of an error, and `unmarshal` is
`json.Unmarshal(data, result)`, which gives the value behind `result` after it
and the text of its error, if any. -/
def Client.MakeAPIRequest {α : Type} (httpGet : GoString → Except GoString Response)
    (unmarshal : List Byte → α → α × Option GoString) (client : Client) (uri : GoString)
    (result : α) : α × Option ClientError :=
  match httpGet (client.url uri) with
  | .error text => (result, some (.transport text))
  | .ok resp =>
    if resp.StatusCode = 404 then (result, some .notFound)
    else if resp.StatusCode ≠ 200 then (result, some (.unexpectedStatus resp.StatusCode))
    else
      match resp.Body with
      | .error text => (result, some (.read text))
      | .ok data =>
        match unmarshal data result with
        | (value, some text) => (value, some (.decode text data))
        | (value, none) => (value, none)

/-- The result of `fmt.Sprintf` where one is returned, else the empty string. -/
def sprintfText (format : List Byte) (args : List FmtArg) : GoString :=
  match Sprintf format args with
  | some s => s
  | none => []

/-- The method `GetCopies(id)` of the client. -/
def Client.GetCopies (httpGet : GoString → Except GoString Response)
    (unmarshal : List Byte → Int → Int × Option GoString) (client : Client) (id : GoString) :
    Int × Option ClientError :=
  match client.MakeAPIRequest httpGet unmarshal (utf8 "getcopies/" ++ id) 0 with
  | (_, some err) => (0, some err)
  | (copies, none) => (copies, none)

/-- The method `AddCopies(id, copies)` of the client. -/
def Client.AddCopies (httpGet : GoString → Except GoString Response)
    (unmarshal : List Byte → Int → Int × Option GoString) (client : Client) (id : GoString)
    (copies : Int) : Int × Option ClientError :=
  match client.MakeAPIRequest httpGet unmarshal
      (sprintfText (utf8 "addcopies/%s/%d") [.str id, .int copies]) 0 with
  | (_, some err) => (0, some err)
  | (stock, none) => (stock, none)

/-- The method `SubCopies(id, copies)` of the client. -/
def Client.SubCopies (httpGet : GoString → Except GoString Response)
    (unmarshal : List Byte → Int → Int × Option GoString) (client : Client) (id : GoString)
    (copies : Int) : Int × Option ClientError :=
  match client.MakeAPIRequest httpGet unmarshal
      (sprintfText (utf8 "subcopies/%s/%d") [.str id, .int copies]) 0 with
  | (_, some err) => (0, some err)
  | (stock, none) => (stock, none)

/-- The method `GetBook(id)` of the client. -/
def Client.GetBook (httpGet : GoString → Except GoString Response)
    (unmarshal : List Byte → Book → Book × Option GoString) (client : Client) (id : GoString) :
    Book × Option ClientError :=
  match client.MakeAPIRequest httpGet unmarshal (utf8 "find/" ++ id) Book.zero with
  | (_, some err) => (Book.zero, some err)
  | (book, none) => (book, none)

/-- The method `GetAllBooks()` of the client; the nil slice is the empty list. -/
def Client.GetAllBooks (httpGet : GoString → Except GoString Response)
    (unmarshal : List Byte → List Book → List Book × Option GoString) (client : Client) :
    List Book × Option ClientError :=
  match client.MakeAPIRequest httpGet unmarshal (utf8 "list") [] with
  | (_, some err) => ([], some err)
  | (bookList, none) => (bookList, none)

/-- The book of the test of `String`. -/
def bookSeaRoom : Book := ⟨[], utf8 "Sea Room", utf8 "Adam Nicolson", 2⟩

/-- A server that answers every request with the given status and body. -/
def serverOf (status : Int) (body : List Byte) : GoString → Except GoString Response :=
  fun _ => .ok ⟨status, .ok body⟩

/-- The text of the error of `json.Unmarshal` for a JSON string decoded into
an `int`. -/
def typeErrorText : GoString :=
  utf8 "json: cannot unmarshal string into Go value of type int"

/-- The function `json.Unmarshal` into an `int` on the two bodies of the
examples: the number `3` is stored, and the JSON string `"x"` is refused with
`typeErrorText` and leaves the value as it was. The other bodies play no part
in the examples and are treated like the second. -/
def unmarshalIntSample (data : List Byte) (n : Int) : Int × Option GoString :=
  if data = utf8 "3" then (3, none) else (n, some typeErrorText)

/-- The table of printable runes above ASCII taken in the examples, whose
bodies are ASCII. -/
def isPrintSample : Nat → Bool := fun _ => true

/-! ## Lemmas on integers and maps -/

theorem wrapInt_eq_self {x : Int} (h : InRange x) : wrapInt x = x := by
  unfold InRange minInt maxInt at h
  unfold wrapInt
  have h1 : (x + 2 ^ 63) % 2 ^ 64 = x + 2 ^ 63 :=
    Int.emod_eq_of_lt (by omega) (by omega)
  omega

theorem wrapInt_inRange (x : Int) : InRange (wrapInt x) := by
  unfold InRange minInt maxInt wrapInt
  have h1 : 0 ≤ (x + 2 ^ 63) % 2 ^ 64 := Int.emod_nonneg _ (by norm_num)
  have h2 : (x + 2 ^ 63) % 2 ^ 64 < 2 ^ 64 := Int.emod_lt_of_pos _ (by norm_num)
  constructor <;> omega

theorem mapGet_mapSet_self (data : List (GoString × Book)) (key : GoString) (book : Book) :
    mapGet (mapSet data key book) key = some book := by
  induction data with
  | nil => simp [mapSet, mapGet]
  | cons kb rest ih =>
    obtain ⟨k, b⟩ := kb
    by_cases h : k = key
    · simp [mapSet, mapGet, h]
    · simp [mapSet, mapGet, h, ih]

theorem mapGet_mapSet_ne (data : List (GoString × Book)) (key other : GoString) (book : Book)
    (hne : other ≠ key) : mapGet (mapSet data key book) other = mapGet data other := by
  induction data with
  | nil =>
    have h : ¬ key = other := fun h => hne h.symm
    simp [mapSet, mapGet, h]
  | cons kb rest ih =>
    obtain ⟨k, b⟩ := kb
    by_cases h : k = key
    · subst h
      have h2 : ¬ k = other := fun h => hne h.symm
      simp [mapSet, mapGet, h2]
    · by_cases h3 : k = other
      · subst h3
        simp [mapSet, mapGet, h]
      · simp [mapSet, mapGet, h, h3, ih]

theorem mem_mapSet {data : List (GoString × Book)} {key : GoString} {book : Book}
    {kb : GoString × Book} (h : kb ∈ mapSet data key book) : kb = (key, book) ∨ kb ∈ data := by
  induction data with
  | nil => simpa [mapSet] using h
  | cons hd rest ih =>
    obtain ⟨k, b⟩ := hd
    by_cases hk : k = key
    · simp only [mapSet, hk, if_true, List.mem_cons] at h
      rcases h with h | h
      · exact Or.inl h
      · exact Or.inr (List.mem_cons_of_mem _ h)
    · simp only [mapSet, hk, if_false, List.mem_cons] at h
      rcases h with h | h
      · exact Or.inr (by simp [h])
      · rcases ih h with h | h
        · exact Or.inl h
        · exact Or.inr (List.mem_cons_of_mem _ h)

theorem mem_of_mapGet {data : List (GoString × Book)} {key : GoString} {book : Book}
    (h : mapGet data key = some book) : (key, book) ∈ data := by
  induction data with
  | nil => simp [mapGet] at h
  | cons hd rest ih =>
    obtain ⟨k, b⟩ := hd
    by_cases hk : k = key
    · simp only [mapGet, hk, if_true, Option.some.injEq] at h
      simp [hk, h]
    · simp only [mapGet, hk, if_false] at h
      exact List.mem_cons_of_mem _ (ih h)

theorem map_fst_mapSet (data : List (GoString × Book)) (key : GoString) (book : Book) :
    (mapSet data key book).map Prod.fst
      = if key ∈ data.map Prod.fst then data.map Prod.fst else data.map Prod.fst ++ [key] := by
  induction data with
  | nil => simp [mapSet]
  | cons kb rest ih =>
    obtain ⟨k, b⟩ := kb
    by_cases hk : k = key
    · simp [mapSet, hk]
    · have hk' : ¬ key = k := fun h => hk h.symm
      by_cases hmem : key ∈ rest.map Prod.fst
      · simp only [hmem, if_true] at ih
        simp [mapSet, hk, hk', ih, hmem]
      · simp only [hmem, if_false] at ih
        simp [mapSet, hk, hk', ih, hmem]

/-- An assignment to a Go map gives a Go map. -/
theorem nodupKeys_mapSet {data : List (GoString × Book)} (h : NodupKeys data)
    (key : GoString) (book : Book) : NodupKeys (mapSet data key book) := by
  unfold NodupKeys at h ⊢
  rw [map_fst_mapSet]
  split_ifs with hmem
  · exact h
  · exact List.nodup_append.mpr ⟨h, by simp, by
      intro a ha hb
      simp only [List.mem_singleton] at hb
      subst hb
      exact hmem ha⟩

theorem entries_of_data {catalog : Catalog} {data : List (GoString × Book)}
    (h : catalog.data = some data) : catalog.entries = data := by
  simp [Catalog.entries, h]

theorem data_of_mapGet {catalog : Catalog} {id : GoString} {book : Book}
    (h : mapGet catalog.entries id = some book) :
    ∃ data, catalog.data = some data ∧ mapGet data id = some book := by
  cases hd : catalog.data with
  | none => simp [Catalog.entries, hd, mapGet] at h
  | some data => exact ⟨data, rfl, by simpa [Catalog.entries, hd] using h⟩

theorem assign_of_data {catalog : Catalog} {data : List (GoString × Book)}
    (h : catalog.data = some data) (key : GoString) (book : Book) :
    catalog.assign key book = some ⟨some (mapSet data key book), catalog.Path⟩ := by
  simp [Catalog.assign, h]

theorem copiesOK_mapSet {catalog : Catalog} {data : List (GoString × Book)} {key : GoString}
    {book : Book} (hd : catalog.data = some data) (h : CopiesOK catalog)
    (hb : 0 ≤ book.Copies ∧ book.Copies ≤ maxInt) :
    CopiesOK ⟨some (mapSet data key book), catalog.Path⟩ := by
  intro kb hkb
  have hkb' : kb ∈ mapSet data key book := by simpa [Catalog.entries] using hkb
  rcases mem_mapSet hkb' with h1 | h1
  · subst h1; exact hb
  · exact h kb (by simpa [entries_of_data hd] using h1)

/-- One admissible call on a catalog with an allocated map and non-negative
counts does not panic and gives such a catalog again. -/
theorem copiesOK_step {catalog : Catalog} {op : Op} (hd : ∃ data, catalog.data = some data)
    (h : CopiesOK catalog) (hop : op.admissible catalog = true) :
    ∃ next, catalog.step op = some next ∧ (∃ data, next.data = some data)
      ∧ CopiesOK next := by
  obtain ⟨data, hdata⟩ := hd
  have hent := entries_of_data hdata
  cases op with
  | addBook book =>
    simp only [Op.admissible, decide_eq_true_eq] at hop
    simp only [Catalog.step, Catalog.AddBook, hent]
    cases hg : mapGet data book.ID with
    | some old => exact ⟨catalog, by simp, ⟨data, hdata⟩, h⟩
    | none =>
      refine ⟨⟨some (mapSet data book.ID book), catalog.Path⟩, ?_, ⟨_, rfl⟩,
        copiesOK_mapSet hdata h hop⟩
      simp [assign_of_data hdata]
  | addCopies id copies =>
    simp only [Catalog.step, Catalog.AddCopies, hent]
    cases hg : mapGet data id with
    | none => exact ⟨catalog, by simp, ⟨data, hdata⟩, h⟩
    | some book =>
      simp only [Op.admissible, hent, hg, decide_eq_true_eq] at hop
      have hr : InRange (book.Copies + copies) := by
        unfold InRange minInt; unfold maxInt at hop ⊢; omega
      refine ⟨⟨some (mapSet data book.ID
          { book with Copies := wrapInt (book.Copies + copies) }), catalog.Path⟩, ?_, ⟨_, rfl⟩,
        copiesOK_mapSet hdata h ?_⟩
      · simp [assign_of_data hdata]
      · simp only [wrapInt_eq_self hr]
        exact hop
  | subCopies id copies =>
    simp only [Catalog.step, Catalog.SubCopies, hent]
    cases hg : mapGet data id with
    | none => exact ⟨catalog, by simp, ⟨data, hdata⟩, h⟩
    | some book =>
      simp only [Op.admissible, hent, hg, decide_eq_true_eq] at hop
      by_cases hlt : book.Copies < copies
      · exact ⟨catalog, by simp [hlt], ⟨data, hdata⟩, h⟩
      · have hr : InRange (book.Copies - copies) := by
          unfold InRange minInt; unfold maxInt at hop ⊢; omega
        refine ⟨⟨some (mapSet data book.ID
            { book with Copies := wrapInt (book.Copies - copies) }), catalog.Path⟩, ?_,
          ⟨_, rfl⟩, copiesOK_mapSet hdata h ?_⟩
        · simp [hlt, assign_of_data hdata]
        · simp only [wrapInt_eq_self hr]
          omega
  | setCopies id copies =>
    simp only [Op.admissible, decide_eq_true_eq] at hop
    simp only [Catalog.step, Catalog.SetCopies, hent]
    cases hg : mapGet data id with
    | none => exact ⟨catalog, by simp, ⟨data, hdata⟩, h⟩
    | some book =>
      by_cases hlt : copies < 0
      · exact ⟨catalog, by simp [Book.SetCopies, hlt], ⟨data, hdata⟩, h⟩
      · refine ⟨⟨some (mapSet data book.ID { book with Copies := copies }), catalog.Path⟩,
          ?_, ⟨_, rfl⟩, copiesOK_mapSet hdata h ?_⟩
        · simp [Book.SetCopies, hlt, assign_of_data hdata]
        · simp only
          omega

/-- On a catalog with a nil map a call either panics or changes nothing. -/
theorem step_of_nil {catalog : Catalog} (hd : catalog.data = none) (op : Op) (next : Catalog)
    (hstep : catalog.step op = some next) : next = catalog := by
  have hent : catalog.entries = [] := by simp [Catalog.entries, hd]
  cases op with
  | addBook book =>
    simp [Catalog.step, Catalog.AddBook, hent, mapGet, Catalog.assign, hd] at hstep
  | addCopies id copies =>
    simp [Catalog.step, Catalog.AddCopies, hent, mapGet] at hstep
    exact hstep.symm
  | subCopies id copies =>
    simp [Catalog.step, Catalog.SubCopies, hent, mapGet] at hstep
    exact hstep.symm
  | setCopies id copies =>
    simp [Catalog.step, Catalog.SetCopies, hent, mapGet] at hstep
    exact hstep.symm

/-- One admissible call keeps the counts non-negative, whenever it returns. -/
theorem copiesOK_step_of_some {catalog : Catalog} {op : Op} (h : CopiesOK catalog)
    (hop : op.admissible catalog = true) (next : Catalog)
    (hstep : catalog.step op = some next) : CopiesOK next := by
  cases hd : catalog.data with
  | none => rw [step_of_nil hd op next hstep]; exact h
  | some data =>
    obtain ⟨next', hstep', _, hok⟩ := copiesOK_step ⟨data, hd⟩ h hop
    rw [hstep] at hstep'
    cases hstep'
    exact hok

theorem copiesOK_run (ops : List Op) : ∀ (catalog : Catalog),
    (∃ data, catalog.data = some data) → CopiesOK catalog →
    admissible catalog ops = true →
    ∃ result, catalog.run ops = some result ∧ CopiesOK result := by
  induction ops with
  | nil => intro catalog _ h _; exact ⟨catalog, rfl, h⟩
  | cons op ops ih =>
    intro catalog hd h hadm
    simp only [admissible, Bool.and_eq_true] at hadm
    obtain ⟨next, hstep, hd', h'⟩ := copiesOK_step hd h hadm.1
    simp only [hstep] at hadm
    obtain ⟨result, hrun, hres⟩ := ih next hd' h' hadm.2
    exact ⟨result, by simp [Catalog.run, hstep, hrun], hres⟩

theorem copiesOK_run_of_some (ops : List Op) : ∀ (catalog : Catalog), CopiesOK catalog →
    admissible catalog ops = true → ∀ result, catalog.run ops = some result →
    CopiesOK result := by
  induction ops with
  | nil =>
    intro catalog h _ result hrun
    simp only [Catalog.run, Option.some.injEq] at hrun
    rw [← hrun]; exact h
  | cons op ops ih =>
    intro catalog h hadm result hrun
    simp only [admissible, Bool.and_eq_true] at hadm
    cases hstep : catalog.step op with
    | none => simp [Catalog.run, hstep] at hrun
    | some next =>
      simp only [hstep] at hadm
      simp only [Catalog.run, hstep] at hrun
      exact ih next (copiesOK_step_of_some h hadm.1 next hstep) hadm.2 result hrun

/-! ## Lemmas on UTF-8 -/

theorem ofNat_val_eq (b : Byte) (x : Nat) (h : x = b.val) : (Fin.ofNat x : Byte) = b := by
  subst h
  apply Fin.ext
  simp [Fin.ofNat, Nat.mod_eq_of_lt b.isLt]

theorem acceptSecond_bounds {b0 b1 : Byte} (h : acceptSecond b0 b1 = true) :
    0x80 ≤ b1.val ∧ b1.val ≤ 0xBF ∧ (b0.val = 0xE0 → 0xA0 ≤ b1.val)
    ∧ (b0.val = 0xED → b1.val ≤ 0x9F) ∧ (b0.val = 0xF0 → 0x90 ≤ b1.val)
    ∧ (b0.val = 0xF4 → b1.val ≤ 0x8F) := by
  unfold acceptSecond isCont at h
  split_ifs at h <;> simp only [decide_eq_true_eq] at h <;> omega

theorem isCont_iff (b : Byte) : isCont b = true ↔ 0x80 ≤ b.val ∧ b.val ≤ 0xBF := by
  simp [isCont]

/-- A valid first rune: its width is positive and within the bytes, encoding it
gives back its bytes, and decoding sees only those bytes. -/
theorem decodeRune_valid {b : Byte} {t : List Byte} {r size : Nat}
    (h : decodeRune (b :: t) = (r, size)) (hv : ¬ (r = RuneError ∧ size = 1)) :
    1 ≤ size ∧ size ≤ (b :: t).length ∧ encodeRune r = (b :: t).take size
    ∧ ∀ X, decodeRune ((b :: t).take size ++ X) = (r, size) := by
  unfold decodeRune at h
  by_cases h1 : b.val < 0x80
  · simp only [h1, if_true, Prod.mk.injEq] at h
    obtain ⟨hr, hs⟩ := h
    subst hr; subst hs
    refine ⟨le_refl _, by simp, ?_, ?_⟩
    · simp [encodeRune, h1, ofNat_val_eq b b.val rfl]
    · intro X
      simp [decodeRune, h1]
  · simp only [h1, if_false] at h
    by_cases h2 : 0xC2 ≤ b.val ∧ b.val ≤ 0xDF
    · simp only [h2, and_self, if_true] at h
      match t, h with
      | [], h => simp at h; exact absurd ⟨h.1.symm, h.2.symm⟩ hv
      | b1 :: t1, h =>
        by_cases hc : isCont b1 = true
        · simp only [hc, if_true, Prod.mk.injEq] at h
          obtain ⟨hr, hs⟩ := h
          have hc1 := (isCont_iff b1).1 hc
          have hr64 : r / 64 = b.val - 0xC0 := by omega
          have hrm : r % 64 = b1.val - 0x80 := by omega
          have e0 : (Fin.ofNat (0xC0 + r / 64) : Byte) = b := ofNat_val_eq _ _ (by omega)
          have e1 : (Fin.ofNat (0x80 + r % 64) : Byte) = b1 := ofNat_val_eq _ _ (by omega)
          have hlo : ¬ r < 0x80 := by omega
          have hhi : r < 0x800 := by omega
          subst hs
          refine ⟨by omega, by simp, ?_, ?_⟩
          · simp [encodeRune, hlo, hhi, e0, e1]
          · intro X
            simp [decodeRune, h1, h2, hc, hr]
        · simp only [hc, Bool.false_eq_true, if_false, Prod.mk.injEq] at h
          exact absurd ⟨h.1.symm, h.2.symm⟩ hv
    · simp only [h2, if_false] at h
      by_cases h3 : 0xE0 ≤ b.val ∧ b.val ≤ 0xEF
      · simp only [h3, and_self, if_true] at h
        match t, h with
        | [], h => simp at h; exact absurd ⟨h.1.symm, h.2.symm⟩ hv
        | [_], h => simp at h; exact absurd ⟨h.1.symm, h.2.symm⟩ hv
        | b1 :: b2 :: t2, h =>
          by_cases hc : (acceptSecond b b1 && isCont b2) = true
          · simp only [hc, if_true, Prod.mk.injEq] at h
            obtain ⟨hr, hs⟩ := h
            have hc' := hc
            simp only [Bool.and_eq_true] at hc'
            have ha := acceptSecond_bounds hc'.1
            have hc2 := (isCont_iff b2).1 hc'.2
            have e0 : (Fin.ofNat (0xE0 + r / 4096) : Byte) = b := ofNat_val_eq _ _ (by omega)
            have e1 : (Fin.ofNat (0x80 + r / 64 % 64) : Byte) = b1 :=
              ofNat_val_eq _ _ (by omega)
            have e2 : (Fin.ofNat (0x80 + r % 64) : Byte) = b2 := ofNat_val_eq _ _ (by omega)
            have hlo : ¬ r < 0x80 := by omega
            have hlo2 : ¬ r < 0x800 := by omega
            have hsur : ¬ (0x10FFFF < r ∨ (0xD800 ≤ r ∧ r ≤ 0xDFFF)) := by omega
            have hhi : r < 0x10000 := by omega
            subst hs
            refine ⟨by omega, by simp, ?_, ?_⟩
            · simp [encodeRune, hlo, hlo2, hsur, hhi, e0, e1, e2]
            · intro X
              simp [decodeRune, h1, h2, h3, hc, hr]
          · simp only [hc, Bool.false_eq_true, if_false, Prod.mk.injEq] at h
            exact absurd ⟨h.1.symm, h.2.symm⟩ hv
      · simp only [h3, if_false] at h
        by_cases h4 : 0xF0 ≤ b.val ∧ b.val ≤ 0xF4
        · simp only [h4, and_self, if_true] at h
          match t, h with
          | [], h => simp at h; exact absurd ⟨h.1.symm, h.2.symm⟩ hv
          | [_], h => simp at h; exact absurd ⟨h.1.symm, h.2.symm⟩ hv
          | [_, _], h => simp at h; exact absurd ⟨h.1.symm, h.2.symm⟩ hv
          | b1 :: b2 :: b3 :: t3, h =>
            by_cases hc : (acceptSecond b b1 && isCont b2 && isCont b3) = true
            · simp only [hc, if_true, Prod.mk.injEq] at h
              obtain ⟨hr, hs⟩ := h
              have hc' := hc
              simp only [Bool.and_eq_true] at hc'
              have ha := acceptSecond_bounds hc'.1.1
              have hc2 := (isCont_iff b2).1 hc'.1.2
              have hc3 := (isCont_iff b3).1 hc'.2
              have e0 : (Fin.ofNat (0xF0 + r / 262144) : Byte) = b :=
                ofNat_val_eq _ _ (by omega)
              have e1 : (Fin.ofNat (0x80 + r / 4096 % 64) : Byte) = b1 :=
                ofNat_val_eq _ _ (by omega)
              have e2 : (Fin.ofNat (0x80 + r / 64 % 64) : Byte) = b2 :=
                ofNat_val_eq _ _ (by omega)
              have e3 : (Fin.ofNat (0x80 + r % 64) : Byte) = b3 := ofNat_val_eq _ _ (by omega)
              have hlo : ¬ r < 0x80 := by omega
              have hlo2 : ¬ r < 0x800 := by omega
              have hsur : ¬ (0x10FFFF < r ∨ (0xD800 ≤ r ∧ r ≤ 0xDFFF)) := by omega
              have hhi : ¬ r < 0x10000 := by omega
              subst hs
              refine ⟨by omega, by simp, ?_, ?_⟩
              · simp [encodeRune, hlo, hlo2, hsur, hhi, e0, e1, e2, e3]
              · intro X
                simp [decodeRune, h1, h2, h3, h4, hc, hr]
            · simp only [hc, Bool.false_eq_true, if_false, Prod.mk.injEq] at h
              exact absurd ⟨h.1.symm, h.2.symm⟩ hv
        · simp only [h4, if_false, Prod.mk.injEq] at h
          exact absurd ⟨h.1.symm, h.2.symm⟩ hv

/-! ## Lemmas on JSON strings -/

theorem fromHex_hexDigit (n : Nat) (h : n < 16) : fromHex (hexDigit n) = some n := by
  interval_cases n <;> rfl

theorem getu4_hex (a b c d : Nat) (ha : a < 16) (hb : b < 16) (hc : c < 16) (hd : d < 16)
    (X : List Byte) :
    getu4 (hexDigit a :: hexDigit b :: hexDigit c :: hexDigit d :: X)
      = some (a * 4096 + b * 256 + c * 16 + d, X) := by
  simp [getu4, fromHex_hexDigit, ha, hb, hc, hd]

theorem byte_eq_of_val {b : Byte} {n : Nat} (hn : n < 256) (h : b.val = n) :
    b = (Fin.ofNat n : Byte) := by
  apply Fin.ext
  simp [Fin.ofNat, Nat.mod_eq_of_lt hn, h]

theorem unquoteLoop_escapeByte (b : Byte) (hb : b.val < 0x80) (hs : htmlSafe b = false)
    (g : Nat) (X : List Byte) :
    unquoteLoop (g + 1) (escapeByte b ++ X) = prepend [b] (unquoteLoop g X) := by
  by_cases h1 : b.val = 0x5C ∨ b.val = 0x22
  · have h1' : b.val = 0x22 ∨ b.val = 0x5C ∨ b.val = 0x2F := by omega
    simp +decide [escapeByte, unquoteLoop, h1, h1']
  · by_cases h2 : b.val = 0x08
    · have hb8 : b = 0x08 := byte_eq_of_val (by norm_num) h2
      subst hb8
      simp +decide [escapeByte, unquoteLoop]
    · by_cases h3 : b.val = 0x0C
      · have hb8 : b = 0x0C := byte_eq_of_val (by norm_num) h3
        subst hb8
        simp +decide [escapeByte, unquoteLoop]
      · by_cases h4 : b.val = 0x0A
        · have hb8 : b = 0x0A := byte_eq_of_val (by norm_num) h4
          subst hb8
          simp +decide [escapeByte, unquoteLoop]
        · by_cases h5 : b.val = 0x0D
          · have hb8 : b = 0x0D := byte_eq_of_val (by norm_num) h5
            subst hb8
            simp +decide [escapeByte, unquoteLoop]
          · by_cases h6 : b.val = 0x09
            · have hb8 : b = 0x09 := byte_eq_of_val (by norm_num) h6
              subst hb8
              simp +decide [escapeByte, unquoteLoop]
            · have hg : getu4 (0x30 :: 0x30 :: hexDigit (b.val / 16) :: hexDigit (b.val % 16) :: X)
                  = some (b.val, X) := by
                have := getu4_hex 0 0 (b.val / 16) (b.val % 16) (by norm_num) (by norm_num)
                  (by omega) (by omega) X
                have e : 0 * 4096 + 0 * 256 + b.val / 16 * 16 + b.val % 16 = b.val := by omega
                rw [e] at this
                exact this
              have hsur : ¬ (0xD800 ≤ b.val ∧ b.val ≤ 0xDFFF) := by omega
              have henc : encodeRune b.val = [b] := by
                simp [encodeRune, hb, ofNat_val_eq b b.val rfl]
              simp +decide [escapeByte, unquoteLoop, h1, h2, h3, h4, h5, h6, hg, hsur, henc]


theorem prepend_some (p t rest : List Byte) : prepend p (some (t, rest)) = some (p ++ t, rest) :=
  rfl

theorem htmlSafe_bounds {b : Byte} (h : htmlSafe b = true) :
    0x20 ≤ b.val ∧ b.val < 0x80 ∧ b.val ≠ 0x22 ∧ b.val ≠ 0x5C := by
  simp only [htmlSafe, decide_eq_true_eq] at h
  omega

/-- The string decoder inverts the string encoder on valid UTF-8. -/
theorem unquoteLoop_appendStringLoop :
    ∀ (fuel : Nat) (s : List Byte), s.length ≤ fuel → validLoop fuel s = true →
    ∀ (g : Nat) (rest : List Byte), (appendStringLoop fuel s).length < g →
      unquoteLoop g (appendStringLoop fuel s ++ 0x22 :: rest) = some (s, rest) := by
  intro fuel
  induction fuel with
  | zero =>
    intro s hlen _ g rest hg
    have hs : s = [] := List.length_eq_zero.mp (Nat.le_zero.mp hlen)
    subst hs
    obtain ⟨g', rfl⟩ : ∃ g', g = g' + 1 := ⟨g - 1, by omega⟩
    simp +decide [appendStringLoop, unquoteLoop]
  | succ f ih =>
    intro s hlen hvalid g rest hg
    match s, hlen, hvalid, hg with
    | [], _, _, hg =>
      obtain ⟨g', rfl⟩ : ∃ g', g = g' + 1 := ⟨g - 1, by omega⟩
      simp +decide [appendStringLoop, unquoteLoop]
    | b :: t, hlen, hvalid, hg =>
      obtain ⟨g', rfl⟩ : ∃ g', g = g' + 1 := ⟨g - 1, by omega⟩
      have hlen' : t.length ≤ f := by simpa using hlen
      by_cases h1 : b.val < 0x80
      · have hvt : validLoop f t = true := by
          have := hvalid
          simp [validLoop, decodeRune, h1, RuneError] at this
          exact this.2
        by_cases hsafe : htmlSafe b = true
        · have hb := htmlSafe_bounds hsafe
          have hg' : (appendStringLoop f t).length < g' := by
            simp [appendStringLoop, h1, hsafe] at hg
            omega
          have hnc : ¬ b.val < 0x20 := by omega
          simp [appendStringLoop, h1, hsafe, unquoteLoop, hb.2.2.1, hb.2.2.2, hnc,
            ih t hlen' hvt g' rest hg', prepend_some]
        · have hsafe' : htmlSafe b = false := by simpa using hsafe
          have hg' : (appendStringLoop f t).length < g' := by
            simp [appendStringLoop, h1, hsafe'] at hg
            have : 2 ≤ (escapeByte b).length := by
              unfold escapeByte; split_ifs <;> simp
            omega
          simp only [appendStringLoop, h1, if_true, hsafe', Bool.false_eq_true, if_false,
            List.append_assoc]
          rw [unquoteLoop_escapeByte b h1 hsafe', ih t hlen' hvt g' rest hg', prepend_some]
          simp
      · rcases hdec : decodeRune (b :: t) with ⟨c, size⟩
        have hv : ¬ (c = RuneError ∧ size = 1) ∧ validLoop f ((b :: t).drop size) = true := by
          have := hvalid
          simp only [validLoop, hdec] at this
          by_cases hbad : c = RuneError ∧ size = 1
          · simp [hbad] at this
          · simp only [hbad, if_false] at this
            exact ⟨hbad, this⟩
        obtain ⟨hsz1, hsz2, henc, hdecX⟩ := decodeRune_valid hdec hv.1
        have hdl : ((b :: t).drop size).length ≤ f := by
          simp only [List.length_drop, List.length_cons] at hlen ⊢
          omega
        have hnq : ¬ b.val = 0x22 := by omega
        have hnb : ¬ b.val = 0x5C := by omega
        have hnc : ¬ b.val < 0x20 := by omega
        by_cases hls : c = 0x2028 ∨ c = 0x2029
        · have hg' : (appendStringLoop f ((b :: t).drop size)).length < g' := by
            simp [appendStringLoop, h1, hdec, hv.1, hls] at hg
            omega
          have hgu : ∀ Y, getu4 (0x32 :: 0x30 :: 0x32 :: hexDigit (c % 16) :: Y) = some (c, Y) := by
            intro Y
            have := getu4_hex 2 0 2 (c % 16) (by norm_num) (by norm_num) (by norm_num)
              (by omega) Y
            have e : 2 * 4096 + 0 * 256 + 2 * 16 + c % 16 = c := by omega
            rw [e] at this
            exact this
          have hsur : ¬ (0xD800 ≤ c ∧ c ≤ 0xDFFF) := by omega
          simp only [appendStringLoop, h1, if_false, hdec, hv.1, hls, if_true,
            List.append_assoc, List.cons_append, List.nil_append]
          simp +decide only [unquoteLoop, hgu, hsur, if_false]
          rw [ih _ hdl hv.2 g' rest hg', prepend_some, henc, List.take_append_drop]
          simp
        · obtain ⟨T, hT⟩ : ∃ T, (b :: t).take size = b :: T := by
            obtain ⟨k, rfl⟩ : ∃ k, size = k + 1 := ⟨size - 1, by omega⟩
            exact ⟨t.take k, by simp⟩
          have hTl : (b :: T).length = size := by
            rw [← hT, List.length_take]; omega
          have hg' : (appendStringLoop f ((b :: t).drop size)).length < g' := by
            simp [appendStringLoop, h1, hdec, hv.1, hls] at hg
            omega
          have hdrop : ∀ Y : List Byte, List.drop size (b :: (T ++ Y)) = Y := by
            intro Y
            rw [← List.cons_append, ← hTl, List.drop_left]
          rw [hT] at hdecX henc
          simp only [appendStringLoop, h1, if_false, hdec, hv.1, hls, hT,
            List.append_assoc, List.cons_append]
          simp only [unquoteLoop, hnq, hnb, hnc, h1, if_false]
          have hd2 := hdecX (appendStringLoop f (List.drop size (b :: t)) ++ 0x22 :: rest)
          simp only [List.cons_append] at hd2
          simp only [hd2, hdrop]
          rw [ih _ hdl hv.2 g' rest hg', prepend_some, henc, ← hT, List.take_append_drop]

/-- A JSON string literal written by `appendString` for valid UTF-8 is read
back by `parseString`. -/
theorem parseString_appendString (s : GoString) (hs : validString s = true)
    (rest : List Byte) : parseString (appendString s ++ rest) = some (s, rest) := by
  unfold appendString parseString
  simp only [List.cons_append, List.append_assoc, List.singleton_append]
  simp +decide only [if_true]
  apply unquoteLoop_appendStringLoop s.length s (le_refl _) hs
  simp


/-! ## Lemmas on JSON numbers -/

theorem digit_val (d : Nat) (hd : d < 10) : ((Fin.ofNat (0x30 + d) : Byte)).val = 0x30 + d := by
  simp [Fin.ofNat]
  omega

theorem isDigit_digit (d : Nat) (hd : d < 10) : isDigit (Fin.ofNat (0x30 + d) : Byte) = true := by
  simp only [isDigit, digit_val d hd, decide_eq_true_eq]
  omega

theorem parseDigits_digitsLoop : ∀ (f n acc : Nat) (rest : List Byte), n < 10 ^ f →
    parseDigits (digitsLoop f n ++ rest) acc
      = parseDigits rest (acc * 10 ^ (digitsLoop f n).length + n) := by
  intro f
  induction f with
  | zero => intro n acc rest h; simp at h; subst h; simp [digitsLoop]
  | succ f ih =>
    intro n acc rest h
    by_cases h10 : n < 10
    · simp [digitsLoop, h10, parseDigits, isDigit_digit n h10, digit_val n h10]
    · have hq : n / 10 < 10 ^ f := by
        rw [pow_succ] at h
        omega
      simp only [digitsLoop, h10, if_false, List.append_assoc, List.singleton_append,
        List.length_append, List.length_singleton]
      rw [ih (n / 10) acc _ hq]
      have hm : n % 10 < 10 := Nat.mod_lt _ (by norm_num)
      simp only [parseDigits, isDigit_digit _ hm, digit_val _ hm, if_true]
      congr 1
      rw [pow_succ]
      have := Nat.div_add_mod n 10
      generalize 10 ^ (digitsLoop f (n / 10)).length = p at *
      have e : acc * (p * 10) = acc * p * 10 := by ring
      rw [e]
      omega

theorem digitsLoop_head : ∀ (f n : Nat), n < 10 ^ (f + 1) →
    ∃ d tl, digitsLoop (f + 1) n = d :: tl ∧ isDigit d = true
      ∧ (d.val = 0x30 → n = 0 ∧ tl = []) := by
  intro f
  induction f with
  | zero =>
    intro n h
    have h10 : n < 10 := by simpa using h
    refine ⟨Fin.ofNat (0x30 + n), [], by simp [digitsLoop, h10], isDigit_digit n h10, ?_⟩
    intro hd
    rw [digit_val n h10] at hd
    exact ⟨by omega, rfl⟩
  | succ f ih =>
    intro n h
    by_cases h10 : n < 10
    · refine ⟨Fin.ofNat (0x30 + n), [], by simp [digitsLoop, h10], isDigit_digit n h10, ?_⟩
      intro hd
      rw [digit_val n h10] at hd
      exact ⟨by omega, rfl⟩
    · have hq : n / 10 < 10 ^ (f + 1) := by
        rw [pow_succ] at h
        omega
      obtain ⟨d, tl, hdl, hdig, hz⟩ := ih (n / 10) hq
      refine ⟨d, tl ++ [Fin.ofNat (0x30 + n % 10)], ?_, hdig, ?_⟩
      · rw [digitsLoop]
        simp only [h10, if_false, hdl, List.cons_append]
      · intro hd
        have := (hz hd).1
        omega

theorem natAbs_lt_of_inRange {n : Int} (h : InRange n) : n.natAbs < 10 ^ 20 := by
  unfold InRange minInt maxInt at h
  omega

/-- A number written by `appendInt` for a Go int and followed by a closing
brace is read back by `parseInt`. -/
theorem parseInt_appendInt (n : Int) (h : InRange n) (rest : List Byte) :
    parseInt (appendInt n ++ 0x7D :: rest) = some (n, 0x7D :: rest) := by
  have hlt := natAbs_lt_of_inRange h
  obtain ⟨d, tl, hdl, hdig, hz⟩ := digitsLoop_head 19 n.natAbs hlt
  have hpd := parseDigits_digitsLoop 20 n.natAbs 0 (0x7D :: rest) hlt
  have hstop : ∀ x, parseDigits (0x7D :: rest) x = (x, 0x7D :: rest) := by
    intro x; simp +decide [parseDigits, isDigit]
  rw [hstop] at hpd
  simp only [zero_mul, zero_add] at hpd
  have hdv : ¬ d = 0x2D := by
    intro hd; subst hd; simp +decide [isDigit] at hdig
  have hlead : ¬ (d.val = 0x30 ∧ ((tl ++ 0x7D :: rest).head?.map isDigit = some true)) := by
    rintro ⟨hd0, hnext⟩
    have := (hz hd0).2
    subst this
    simp +decide [isDigit] at hnext
  rw [hdl] at hpd
  simp only [List.cons_append] at hpd
  by_cases hneg : n < 0
  · have hv : -(n.natAbs : Int) = n := by omega
    simp only [appendInt, hneg, if_true, List.cons_append, parseInt, List.head?_cons,
      decide_True, List.drop_succ_cons, List.drop_zero]
    rw [hdl]
    simp only [List.cons_append, hdig, Bool.not_true, Bool.false_eq_true, if_false, hlead]
    rw [hpd]
    simp only [hv]
    simp +decide [h]
  · have hv : (n.natAbs : Int) = n := by omega
    simp only [appendInt, hneg, if_false, parseInt]
    rw [hdl]
    simp only [List.cons_append, List.head?_cons, Option.some.injEq, hdv, decide_False,
      Bool.false_eq_true, if_false, hdig, Bool.not_true, hlead]
    rw [hpd]
    simp only [hv]
    simp +decide [h]


/-- A number written by `appendInt` for a Go int, at the end of the input, is
read back by `parseInt`. -/
theorem parseInt_appendInt_end (n : Int) (h : InRange n) :
    parseInt (appendInt n) = some (n, []) := by
  have hlt := natAbs_lt_of_inRange h
  obtain ⟨d, tl, hdl, hdig, hz⟩ := digitsLoop_head 19 n.natAbs hlt
  have hpd := parseDigits_digitsLoop 20 n.natAbs 0 [] hlt
  simp only [zero_mul, zero_add, List.append_nil, parseDigits] at hpd
  have hdv : ¬ d = 0x2D := by
    intro hd; subst hd; simp +decide [isDigit] at hdig
  have hlead : ¬ (d.val = 0x30 ∧ (tl.head?.map isDigit = some true)) := by
    rintro ⟨hd0, hnext⟩
    have := (hz hd0).2
    subst this
    simp at hnext
  rw [hdl] at hpd
  by_cases hneg : n < 0
  · have hv : -(n.natAbs : Int) = n := by omega
    simp only [appendInt, hneg, if_true, parseInt, List.head?_cons,
      decide_True, List.drop_succ_cons, List.drop_zero]
    rw [hdl]
    simp only [hdig, Bool.not_true, Bool.false_eq_true, if_false, hlead]
    rw [hpd]
    simp only [hv]
    simp +decide [h]
  · have hv : (n.natAbs : Int) = n := by omega
    simp only [appendInt, hneg, if_false, parseInt]
    rw [hdl]
    simp only [List.head?_cons, Option.some.injEq, hdv, decide_False,
      Bool.false_eq_true, if_false, hdig, Bool.not_true, hlead]
    rw [hpd]
    simp only [hv]
    simp +decide [h]


/-! ## Lemmas on JSON objects -/

theorem expect_append (lit rest : List Byte) : expect lit (lit ++ rest) = some rest := by
  induction lit with
  | nil => cases rest <;> simp [expect]
  | cons c lit ih => simp [expect, ih]

theorem utf8_rbrace : utf8 "\x7d" = [0x7D] := by decide

theorem parseBook_encodeBook (book : Book) (h : book.Encodable) (rest : List Byte) :
    parseBook (encodeBook book ++ rest) = some (book, rest) := by
  obtain ⟨h1, h2, h3, h4⟩ := h
  simp only [encodeBook, parseBook, List.append_assoc, utf8_rbrace, List.singleton_append]
  simp only [expect_append, parseString_appendString _ h1, parseString_appendString _ h2,
    parseString_appendString _ h3, parseInt_appendInt _ h4, Option.bind_eq_bind,
    Option.some_bind, Option.pure_def, bind, pure]
  simp [expect]

theorem parseEntries_encodeEntries : ∀ (es : List (GoString × Book)), es ≠ [] →
    (∀ e ∈ es, EntryOK e) → ∀ (fuel : Nat) (rest : List Byte),
    (encodeEntries es).length ≤ fuel →
    parseEntries fuel (encodeEntries es ++ 0x7D :: rest) = some (es, rest) := by
  intro es
  induction es with
  | nil => intro h; exact absurd rfl h
  | cons e es ih =>
    intro _ hok fuel rest hfuel
    have he := hok e (List.mem_cons_self _ _)
    have hpos : 0 < (appendString e.1).length := by simp [appendString]
    match es, ih, hok, hfuel with
    | [], _, _, hfuel =>
      obtain ⟨f, rfl⟩ : ∃ f, fuel = f + 1 := by
        refine ⟨fuel - 1, ?_⟩
        simp only [encodeEntries, List.length_append] at hfuel
        omega
      simp only [encodeEntries, parseEntries, List.append_assoc, List.cons_append]
      simp only [parseString_appendString _ he.1, expect, if_true,
        parseBook_encodeBook _ he.2, Option.bind_eq_bind, Option.some_bind, bind, pure]
      simp +decide
    | e' :: es', ih, hok, hfuel =>
      obtain ⟨f, rfl⟩ : ∃ f, fuel = f + 1 := by
        refine ⟨fuel - 1, ?_⟩
        simp only [encodeEntries, List.length_append] at hfuel
        omega
      have hf : (encodeEntries (e' :: es')).length ≤ f := by
        simp only [encodeEntries, List.length_append, List.length_cons] at hfuel ⊢
        omega
      have hrec := ih (by simp) (fun x hx => hok x (List.mem_cons_of_mem _ hx)) f rest hf
      simp only [encodeEntries, List.append_assoc, List.cons_append] at hrec ⊢
      simp only [parseEntries, parseString_appendString _ he.1, expect, if_true,
        parseBook_encodeBook _ he.2, Option.bind_eq_bind, Option.some_bind, bind, pure]
      simp +decide only [if_true]
      rw [hrec]
      simp

theorem mapSet_fresh (data : List (GoString × Book)) (key : GoString) (book : Book)
    (h : key ∉ data.map Prod.fst) : mapSet data key book = data ++ [(key, book)] := by
  induction data with
  | nil => simp [mapSet]
  | cons kb rest ih =>
    obtain ⟨k, b⟩ := kb
    simp only [List.map_cons, List.mem_cons, not_or] at h
    have hk : ¬ k = key := fun hk => h.1 hk.symm
    simp [mapSet, hk, ih h.2]

theorem foldl_mapSet_fresh : ∀ (es acc : List (GoString × Book)),
    NodupKeys (acc ++ es) →
    es.foldl (fun m e => mapSet m e.1 e.2) acc = acc ++ es := by
  intro es
  induction es with
  | nil => intro acc _; simp
  | cons e es ih =>
    intro acc h
    have hfresh : e.1 ∉ acc.map Prod.fst := by
      unfold NodupKeys at h
      simp only [List.map_append, List.map_cons] at h
      have := (List.nodup_append.mp h).2.2
      intro hmem
      exact this hmem (List.mem_cons_self _ _) 
    simp only [List.foldl_cons]
    rw [mapSet_fresh acc e.1 e.2 hfresh]
    have h2 : NodupKeys ((acc ++ [(e.1, e.2)]) ++ es) := by
      simpa [NodupKeys] using h
    rw [ih _ h2]
    simp

theorem insertEntry_perm (e : GoString × Book) (es : List (GoString × Book)) :
    List.Perm (insertEntry e es) (e :: es) := by
  induction es with
  | nil => simp [insertEntry]
  | cons x xs ih =>
    simp only [insertEntry]
    split_ifs
    · exact List.Perm.refl _
    · exact (List.Perm.cons x ih).trans (List.Perm.swap e x xs)

theorem sortEntries_perm (es : List (GoString × Book)) : List.Perm (sortEntries es) es := by
  induction es with
  | nil => simp [sortEntries]
  | cons e es ih =>
    simp only [sortEntries]
    exact (insertEntry_perm e _).trans (List.Perm.cons e ih)


theorem encodeEntries_head (e : GoString × Book) (es : List (GoString × Book)) :
    ∃ tail, encodeEntries (e :: es) = 0x22 :: tail := by
  cases es with
  | nil => exact ⟨_, by simp [encodeEntries, appendString]; rfl⟩
  | cons e' es' => exact ⟨_, by simp [encodeEntries, appendString]; rfl⟩

/-- The text written for a map with distinct keys and encodable entries is
decoded into the entries in the order of their keys. -/
theorem decodeData_encodeData (data : List (GoString × Book)) (hkeys : NodupKeys data)
    (hok : ∀ e ∈ data, EntryOK e) :
    decodeData (some []) (encodeData (some data)) = some (some (sortEntries data)) := by
  have hperm := sortEntries_perm data
  have hkeys' : NodupKeys ([] ++ sortEntries data) := by
    unfold NodupKeys at hkeys ⊢
    simpa using (hperm.map Prod.fst).nodup_iff.mpr hkeys
  have hok' : ∀ e ∈ sortEntries data, EntryOK e := fun e he => hok e (hperm.mem_iff.mp he)
  show decodeData (some []) (0x7B :: encodeEntries (sortEntries data) ++ [0x7D, 0x0A])
    = some (some (sortEntries data))
  generalize sortEntries data = es at hkeys' hok'
  cases es with
  | nil => simp +decide [encodeEntries, decodeData]
  | cons e es' =>
    obtain ⟨tail, htail⟩ := encodeEntries_head e es'
    have hparse := parseEntries_encodeEntries (e :: es') (by simp) hok'
      ((0x7B :: encodeEntries (e :: es') ++ [0x7D, 0x0A]).length) [0x0A] (by simp; omega)
    rw [htail] at hparse ⊢
    simp only [List.cons_append] at hparse ⊢
    simp +decide only [decodeData, if_true, if_false]
    simp only [List.length_cons, List.length_append] at hparse ⊢
    rw [hparse]
    simp only [Option.getD_some]
    rw [foldl_mapSet_fresh _ _ hkeys']
    simp

set_option maxRecDepth 100000 in
/-- The text written for a nil map is decoded into a nil map. -/
theorem decodeData_encodeData_nil : decodeData (some []) (encodeData none) = some none := by
  decide


/-! ## Lemmas on the keys of a catalog -/

theorem keyedByID_mapSet {data : List (GoString × Book)} (h : KeyedByID data)
    {key : GoString} {book : Book} (hkey : key = book.ID) :
    KeyedByID (mapSet data key book) := by
  intro kb hkb
  rcases mem_mapSet hkb with h1 | h1
  · subst h1; exact hkey
  · exact h kb h1

theorem mapSet_keys_of_mem {data : List (GoString × Book)} {key : GoString} (book : Book)
    (h : key ∈ data.map Prod.fst) :
    (mapSet data key book).map Prod.fst = data.map Prod.fst := by
  rw [map_fst_mapSet, if_pos h]

theorem key_mem_of_mapGet {data : List (GoString × Book)} {key : GoString} {book : Book}
    (h : mapGet data key = some book) : key ∈ data.map Prod.fst :=
  List.mem_map.mpr ⟨(key, book), mem_of_mapGet h, rfl⟩

theorem mapGet_eq_none_of_not_mem {data : List (GoString × Book)} {key : GoString}
    (h : key ∉ data.map Prod.fst) : mapGet data key = none := by
  cases hg : mapGet data key with
  | none => rfl
  | some book => exact absurd (key_mem_of_mapGet hg) h

theorem mapGet_isSome_of_mem {data : List (GoString × Book)} {key : GoString}
    (h : key ∈ data.map Prod.fst) : ∃ book, mapGet data key = some book := by
  induction data with
  | nil => simp at h
  | cons kb rest ih =>
    obtain ⟨k, b⟩ := kb
    by_cases hk : k = key
    · exact ⟨b, by simp [mapGet, hk]⟩
    · have : key ∈ rest.map Prod.fst := by
        simp only [List.map_cons, List.mem_cons] at h
        rcases h with h | h
        · exact absurd h.symm hk
        · exact h
      obtain ⟨book, hb⟩ := ih this
      exact ⟨book, by simp [mapGet, hk, hb]⟩

/-- In a Go map, looking a key up gives the book stored with it. -/
theorem mapGet_eq_some_iff {data : List (GoString × Book)} (hk : NodupKeys data)
    (key : GoString) (book : Book) : mapGet data key = some book ↔ (key, book) ∈ data := by
  constructor
  · exact mem_of_mapGet
  · intro hmem
    induction data with
    | nil => simp at hmem
    | cons kb rest ih =>
      obtain ⟨k, b⟩ := kb
      unfold NodupKeys at hk
      simp only [List.map_cons, List.nodup_cons] at hk
      simp only [List.mem_cons, Prod.mk.injEq] at hmem
      rcases hmem with ⟨h1, h2⟩ | hmem
      · simp [mapGet, h1, h2]
      · have hne : ¬ k = key := by
          intro hkk
          exact hk.1 (hkk ▸ List.mem_map.mpr ⟨(key, book), hmem, rfl⟩)
        simp only [mapGet, hne, if_false]
        exact ih hk.2 hmem

/-- The state that the mutating methods keep: the map is a Go map whose entries
are stored under the `ID` of their book. -/
theorem step_keeps_keys {catalog next : Catalog} {op : Op}
    (hstep : catalog.step op = some next) :
    (NodupKeys catalog.entries → NodupKeys next.entries)
    ∧ (KeyedByID catalog.entries → KeyedByID next.entries) := by
  cases hd : catalog.data with
  | none =>
    rw [step_of_nil hd op next hstep]
    exact ⟨id, id⟩
  | some data =>
    have hent := entries_of_data hd
    have key : ∀ (k : GoString) (b : Book), k = b.ID →
        next = ⟨some (mapSet data k b), catalog.Path⟩ →
        (NodupKeys catalog.entries → NodupKeys next.entries)
        ∧ (KeyedByID catalog.entries → KeyedByID next.entries) := by
      intro k b hkb hnext
      subst hnext
      rw [hent]
      exact ⟨fun h => nodupKeys_mapSet h k b, fun h => keyedByID_mapSet h hkb⟩
    have same : next = catalog →
        (NodupKeys catalog.entries → NodupKeys next.entries)
        ∧ (KeyedByID catalog.entries → KeyedByID next.entries) := by
      intro h; rw [h]; exact ⟨id, id⟩
    cases op with
    | addBook book =>
      simp only [Catalog.step, Catalog.AddBook, hent] at hstep
      cases hg : mapGet data book.ID with
      | some old =>
        simp only [hg, Option.map_some', Option.some.injEq] at hstep
        exact same hstep.symm
      | none =>
        simp only [hg, assign_of_data hd, Option.map_some', Option.some.injEq] at hstep
        exact key book.ID book rfl hstep.symm
    | addCopies id copies =>
      simp only [Catalog.step, Catalog.AddCopies, hent] at hstep
      cases hg : mapGet data id with
      | none =>
        simp only [hg, Option.map_some', Option.some.injEq] at hstep
        exact same hstep.symm
      | some book =>
        simp only [hg, assign_of_data hd, Option.map_some', Option.some.injEq] at hstep
        exact key book.ID _ (by rfl) hstep.symm
    | subCopies id copies =>
      simp only [Catalog.step, Catalog.SubCopies, hent] at hstep
      cases hg : mapGet data id with
      | none =>
        simp only [hg, Option.map_some', Option.some.injEq] at hstep
        exact same hstep.symm
      | some book =>
        by_cases hlt : book.Copies < copies
        · simp only [hg, hlt, if_true, Option.map_some', Option.some.injEq] at hstep
          exact same hstep.symm
        · simp only [hg, hlt, if_false, assign_of_data hd, Option.map_some',
            Option.some.injEq] at hstep
          exact key book.ID _ (by rfl) hstep.symm
    | setCopies id copies =>
      simp only [Catalog.step, Catalog.SetCopies, hent] at hstep
      cases hg : mapGet data id with
      | none =>
        simp only [hg, Option.map_some', Option.some.injEq] at hstep
        exact same hstep.symm
      | some book =>
        by_cases hlt : copies < 0
        · simp only [hg, Book.SetCopies, hlt, if_true, Option.map_some',
            Option.some.injEq] at hstep
          exact same hstep.symm
        · simp only [hg, Book.SetCopies, hlt, if_false, assign_of_data hd, Option.map_some',
            Option.some.injEq] at hstep
          exact key book.ID _ (by rfl) hstep.symm

theorem run_keeps_keys (ops : List Op) : ∀ (catalog result : Catalog),
    catalog.run ops = some result →
    (NodupKeys catalog.entries → NodupKeys result.entries)
    ∧ (KeyedByID catalog.entries → KeyedByID result.entries) := by
  induction ops with
  | nil =>
    intro catalog result hrun
    simp only [Catalog.run, Option.some.injEq] at hrun
    rw [← hrun]; exact ⟨id, id⟩
  | cons op ops ih =>
    intro catalog result hrun
    cases hstep : catalog.step op with
    | none => simp [Catalog.run, hstep] at hrun
    | some next =>
      simp only [Catalog.run, hstep] at hrun
      have h1 := step_keeps_keys hstep
      have h2 := ih next result hrun
      exact ⟨fun h => h2.1 (h1.1 h), fun h => h2.2 (h1.2 h)⟩

/-- A call on a catalog with an allocated map returns, with an allocated map. -/
theorem step_of_data {catalog : Catalog} (hd : ∃ data, catalog.data = some data) (op : Op) :
    ∃ next, catalog.step op = some next ∧ ∃ data, next.data = some data := by
  obtain ⟨data, hdata⟩ := hd
  have hent := entries_of_data hdata
  have hassign : ∀ (k : GoString) (b : Book), ∃ next, catalog.assign k b = some next
      ∧ ∃ data, next.data = some data :=
    fun k b => ⟨_, assign_of_data hdata k b, _, rfl⟩
  cases op with
  | addBook book =>
    simp only [Catalog.step, Catalog.AddBook, hent]
    cases hg : mapGet data book.ID with
    | some old => exact ⟨catalog, by simp, data, hdata⟩
    | none =>
      obtain ⟨next, hn, hd'⟩ := hassign book.ID book
      exact ⟨next, by simp [hn], hd'⟩
  | addCopies id copies =>
    simp only [Catalog.step, Catalog.AddCopies, hent]
    cases hg : mapGet data id with
    | none => exact ⟨catalog, by simp, data, hdata⟩
    | some book =>
      obtain ⟨next, hn, hd'⟩ := hassign book.ID
        { book with Copies := wrapInt (book.Copies + copies) }
      exact ⟨next, by simp [hn], hd'⟩
  | subCopies id copies =>
    simp only [Catalog.step, Catalog.SubCopies, hent]
    cases hg : mapGet data id with
    | none => exact ⟨catalog, by simp, data, hdata⟩
    | some book =>
      by_cases hlt : book.Copies < copies
      · exact ⟨catalog, by simp [hlt], data, hdata⟩
      · obtain ⟨next, hn, hd'⟩ := hassign book.ID
          { book with Copies := wrapInt (book.Copies - copies) }
        exact ⟨next, by simp [hlt, hn], hd'⟩
  | setCopies id copies =>
    simp only [Catalog.step, Catalog.SetCopies, hent]
    cases hg : mapGet data id with
    | none => exact ⟨catalog, by simp, data, hdata⟩
    | some book =>
      by_cases hlt : copies < 0
      · exact ⟨catalog, by simp [Book.SetCopies, hlt], data, hdata⟩
      · obtain ⟨next, hn, hd'⟩ := hassign book.ID { book with Copies := copies }
        exact ⟨next, by simp [Book.SetCopies, hlt, hn], hd'⟩

theorem run_of_data (ops : List Op) : ∀ (catalog : Catalog),
    (∃ data, catalog.data = some data) → ∃ result, catalog.run ops = some result := by
  induction ops with
  | nil => intro catalog _; exact ⟨catalog, rfl⟩
  | cons op ops ih =>
    intro catalog hd
    obtain ⟨next, hstep, hd'⟩ := step_of_data hd op
    obtain ⟨result, hrun⟩ := ih next hd'
    exact ⟨result, by simp [Catalog.run, hstep, hrun]⟩

theorem foldl_mapSet_nodupKeys (es : List (GoString × Book)) :
    ∀ acc, NodupKeys acc → NodupKeys (es.foldl (fun m e => mapSet m e.1 e.2) acc) := by
  induction es with
  | nil => intro acc h; exact h
  | cons e es ih => intro acc h; exact ih _ (nodupKeys_mapSet h e.1 e.2)

/-- The map that `OpenCatalog` returns is a Go map. -/
theorem nodupKeys_openCatalog {fs : FileSystem} {path : GoString} {catalog : Catalog}
    (h : OpenCatalog fs path = some catalog) : NodupKeys catalog.entries := by
  unfold OpenCatalog at h
  cases hf : fs.files path with
  | none => simp [hf] at h
  | some content =>
    simp only [hf] at h
    cases hdec : decodeData NewCatalog.data content with
    | none => simp [hdec] at h
    | some data =>
      simp only [hdec, Option.some.injEq] at h
      subst h
      have hnil : NodupKeys ([] : List (GoString × Book)) := by simp [NodupKeys]
      match content, hdec with
      | [], hdec => simp [decodeData] at hdec
      | [_], hdec => simp [decodeData] at hdec
      | o :: c :: rest, hdec =>
        simp only [decodeData, NewCatalog, Option.getD_some] at hdec
        split_ifs at hdec with h1 h2 h3
        · cases hdec; simpa [Catalog.entries] using hnil
        · split at hdec
          · rename_i es _ _
            simp only [Option.some.injEq] at hdec
            subst hdec
            simpa [Catalog.entries] using foldl_mapSet_nodupKeys es [] hnil
          · simp at hdec
        · cases hdec; simpa [Catalog.entries] using hnil

/-- The map of every catalog built through the public interface is a Go map. -/
theorem nodupKeys_of_built {catalog : Catalog} (h : Built catalog) :
    NodupKeys catalog.entries := by
  induction h with
  | new => simp [NodupKeys, NewCatalog, Catalog.entries]
  | opened fs path catalog ho => exact nodupKeys_openCatalog ho
  | call catalog next op _ hstep ih => exact (step_keeps_keys hstep).1 ih
  | path catalog p _ ih => simpa [Catalog.entries] using ih

theorem ids_eq_keys {data : List (GoString × Book)} (h : KeyedByID data) :
    (data.map Prod.snd).map (fun book => book.ID) = data.map Prod.fst := by
  rw [List.map_map]
  exact List.map_congr_left (fun kb hkb => (h kb hkb).symm)


/-! ## Lemmas on formatting -/

theorem format_string_bytes : utf8 "%v by %v (copies: %v)"
    = [0x25, 0x76, 0x20, 0x62, 0x79, 0x20, 0x25, 0x76, 0x20, 0x28, 0x63, 0x6F, 0x70, 0x69,
      0x65, 0x73, 0x3A, 0x20, 0x25, 0x76, 0x29] := by
  decide

/-- The text that `Sprintf` gives for the format of `Book.String`. -/
theorem sprintf_book (title author : GoString) (copies : Int) :
    Sprintf (utf8 "%v by %v (copies: %v)") [.str title, .str author, .int copies]
      = some (title ++ utf8 " by " ++ author ++ utf8 " (copies: " ++ appendInt copies
          ++ utf8 ")") := by
  have h1 : utf8 " by " = [0x20, 0x62, 0x79, 0x20] := by decide
  have h2 : utf8 " (copies: " = [0x20, 0x28, 0x63, 0x6F, 0x70, 0x69, 0x65, 0x73, 0x3A, 0x20] := by
    decide
  have h3 : utf8 ")" = [0x29] := by decide
  rw [format_string_bytes, h1, h2, h3]
  simp +decide [Sprintf, FmtArg.format]

/-- A byte string of plain bytes is quoted by putting it between two double
quotes. -/
theorem quoteLoop_plain (isPrint : Nat → Bool) : ∀ (fuel : Nat) (s : List Byte),
    s.length ≤ fuel → (∀ b ∈ s, isPlain b = true) → quoteLoop isPrint fuel s = s := by
  intro fuel
  induction fuel with
  | zero =>
    intro s hlen _
    have hs : s = [] := List.length_eq_zero.mp (Nat.le_zero.mp hlen)
    subst hs; rfl
  | succ f ih =>
    intro s hlen hplain
    match s, hlen, hplain with
    | [], _, _ => rfl
    | b :: t, hlen, hplain =>
      have hb := hplain b (List.mem_cons_self _ _)
      simp only [isPlain, decide_eq_true_eq] at hb
      have h1 : b.val < 0x80 := by omega
      have hne : ¬ (b.val = 0x22 ∨ b.val = 0x5C) := by omega
      have hnr : ¬ b.val = RuneError := by unfold RuneError; omega
      have hp : goIsPrint isPrint b.val = true := by
        simp only [goIsPrint, h1, if_true, decide_eq_true_eq]; omega
      have henc : encodeRune b.val = [b] := by
        simp [encodeRune, h1, ofNat_val_eq b b.val rfl]
      have ht := ih t (by simpa using hlen) (fun x hx => hplain x (List.mem_cons_of_mem _ hx))
      simp [quoteLoop, decodeRune, h1, hnr, escapeRune, hne, hp, henc, ht]

theorem quote_plain (isPrint : Nat → Bool) (s : List Byte) (h : ∀ b ∈ s, isPlain b = true) :
    quote isPrint s = 0x22 :: (s ++ [0x22]) := by
  simp [quote, quoteLoop_plain isPrint s.length s (le_refl _) h]

/-! ## Claims C1 to C9: the operations of the catalog -/

set_option maxRecDepth 100000 in
/-- C1, as stated, fails: `AddBook` stores a book with `Copies = -1` without
error; `AddCopies("abc", -2)` on one copy returns `(-1, nil)` and stores `-1`;
and with `maxInt` copies stored, `AddCopies(id, 1)` as well as
`SubCopies(id, -1)` return without error and store the negative count
`minInt`. -/
theorem copies_nonneg_counterexample :
    NewCatalog.AddBook bookNegative = some (⟨some [(utf8 "n", bookNegative)], []⟩, none)
    ∧ NewCatalog.run [.addBook bookNegative] = some ⟨some [(utf8 "n", bookNegative)], []⟩
    ∧ ¬ NonNegCopies ⟨some [(utf8 "n", bookNegative)], []⟩
    ∧ NewCatalog.run [.addBook bookABC] = some catalogABC
    ∧ (catalogABC.AddCopies (utf8 "abc") (-2)).map (fun r => r.2) = some (-1, none)
    ∧ (NewCatalog.run [.addBook bookABC, .addCopies (utf8 "abc") (-2)]).map
        (fun c => c.GetCopies (utf8 "abc")) = some (-1, none)
    ∧ (NewCatalog.run [.addBook bookMax, .addCopies (utf8 "m") 1]).map
        (fun c => c.GetCopies (utf8 "m")) = some (minInt, none)
    ∧ (NewCatalog.run [.addBook bookMax, .subCopies (utf8 "m") (-1)]).map
        (fun c => c.GetCopies (utf8 "m")) = some (minInt, none)
    ∧ minInt < 0 := by
  decide

/-- C1 (amended): from a catalog whose stored counts are non-negative Go ints
(`NewCatalog()` is one), a sequence of calls with Go int arguments in which
every `AddBook` passes a non-negative `Copies`, every `AddCopies` gives a sum
from 0 to the largest Go int and every `SubCopies` a difference of at most the
largest Go int leaves every stored `Copies` non-negative, and runs without
panic when the map is allocated; and on every catalog `SetCopies` with a
negative count, as `SubCopies` with more than the stored count, returns an
error and the unchanged catalog. -/
theorem copies_nonneg_of_admissible (catalog : Catalog) (ops : List Op)
    (h0 : CopiesOK catalog) (hadm : admissible catalog ops = true) :
    (∀ result, catalog.run ops = some result → NonNegCopies result)
    ∧ (catalog.data ≠ none → ∃ result, catalog.run ops = some result)
    ∧ (∀ (c : Catalog) (id : GoString) (n : Int), n < 0 →
        ∃ err, c.SetCopies id n = some (c, some err))
    ∧ (∀ (c : Catalog) (id : GoString) (book : Book) (n : Int),
        mapGet c.entries id = some book → book.Copies < n →
        ∃ err, c.SubCopies id n = some (c, 0, some err)) := by
  refine ⟨?_, ?_, ?_, ?_⟩
  · intro result hrun kb hkb
    exact (copiesOK_run_of_some ops catalog h0 hadm result hrun kb hkb).1
  · intro hdata
    have hd : ∃ data, catalog.data = some data := by
      cases hc : catalog.data with
      | none => exact absurd hc hdata
      | some data => exact ⟨data, rfl⟩
    obtain ⟨result, hrun, _⟩ := copiesOK_run ops catalog hd h0 hadm
    exact ⟨result, hrun⟩
  · intro c id n hn
    unfold Catalog.SetCopies
    cases hg : mapGet c.entries id with
    | none => exact ⟨.notFound id, rfl⟩
    | some book => exact ⟨.negativeCopies n, by simp [Book.SetCopies, hn]⟩
  · intro c id book n hg hn
    exact ⟨.notEnoughStock book.Copies, by simp [Catalog.SubCopies, hg, hn]⟩

/-- C1 (amended), at `NewCatalog()` and four calls, which end with five copies
of the book `abc`. -/
theorem copies_nonneg_of_admissible_witness :
    CopiesOK NewCatalog ∧ admissible NewCatalog opsABC = true
    ∧ NewCatalog.run opsABC = some ⟨some [(utf8 "abc", { bookABC with Copies := 5 })], []⟩
    ∧ (∀ result, NewCatalog.run opsABC = some result → NonNegCopies result) :=
  ⟨by decide, by decide, by decide,
    (copies_nonneg_of_admissible NewCatalog opsABC (by decide) (by decide)).1⟩

/-- C2: when `id` is present with `c` copies and `n > c`, `SubCopies(id, n)`
returns count 0 and an error that wraps `ErrNotEnoughStock`; its message is
the text `not enough stock: ` followed by `c` in decimal, so that the text
after these eighteen bytes, read as a decimal number, is `c`; the catalog is
unchanged, and `GetCopies(id)` still returns `c`. -/
theorem subCopies_not_enough_stock (catalog : Catalog) (id : GoString) (book : Book)
    (n : Int) (hget : mapGet catalog.entries id = some book) (hn : n > book.Copies) :
    ∃ err, catalog.SubCopies id n = some (catalog, 0, some err)
      ∧ err.IsErrNotEnoughStock = true
      ∧ (∀ isPrint, err.Error isPrint = utf8 "not enough stock: " ++ appendInt book.Copies)
      ∧ (∀ isPrint, InRange book.Copies →
          parseInt ((err.Error isPrint).drop 18) = some (book.Copies, []))
      ∧ catalog.GetCopies id = (book.Copies, none) := by
  have hlt : book.Copies < n := hn
  have hmsg : ∀ isPrint, (CatalogError.notEnoughStock book.Copies).Error isPrint
      = utf8 "not enough stock: " ++ appendInt book.Copies := by
    intro isPrint
    show utf8 "not enough stock" ++ utf8 ": " ++ appendInt book.Copies
      = utf8 "not enough stock: " ++ appendInt book.Copies
    congr 1
  have hlen : (utf8 "not enough stock: ").length = 18 := by decide
  refine ⟨.notEnoughStock book.Copies, ?_, rfl, hmsg, ?_, ?_⟩
  · simp [Catalog.SubCopies, hget, hlt]
  · intro isPrint hr
    rw [hmsg isPrint, ← hlen, List.drop_left]
    exact parseInt_appendInt_end book.Copies hr
  · simp [Catalog.GetCopies, hget]

set_option maxRecDepth 100000 in
/-- C2, at the catalog of the tests: `SubCopies("abc", 2)` on one copy returns
the error with the message `not enough stock: 1`. -/
theorem subCopies_not_enough_stock_witness :
    mapGet catalogABC.entries (utf8 "abc") = some bookABC ∧ (2 : Int) > bookABC.Copies
    ∧ catalogABC.SubCopies (utf8 "abc") 2
        = some (catalogABC, 0, some (.notEnoughStock 1))
    ∧ (CatalogError.notEnoughStock 1).Error isPrintSample = utf8 "not enough stock: 1"
    ∧ parseInt (utf8 "1") = some (1, [])
    ∧ ∃ err, catalogABC.SubCopies (utf8 "abc") 2 = some (catalogABC, 0, some err)
      ∧ err.IsErrNotEnoughStock = true
      ∧ (∀ isPrint, err.Error isPrint = utf8 "not enough stock: " ++ appendInt bookABC.Copies)
      ∧ (∀ isPrint, InRange bookABC.Copies →
          parseInt ((err.Error isPrint).drop 18) = some (bookABC.Copies, []))
      ∧ catalogABC.GetCopies (utf8 "abc") = (bookABC.Copies, none) :=
  ⟨by decide, by decide, by decide, by decide, by decide,
    subCopies_not_enough_stock catalogABC (utf8 "abc") bookABC 2 (by decide) (by decide)⟩

set_option maxRecDepth 100000 in
/-- C3, as stated, fails twice. With `maxInt` copies stored, `SubCopies(id, -1)`
passes the stock check and returns the negative total `minInt`. In the catalog
opened from a file whose member `a` holds a book with `ID` `x`,
`SubCopies("a", 1)` returns 0 and `GetCopies("a")` still returns 1. -/
theorem subCopies_counterexample :
    NewCatalog.run [.addBook bookMax] = some ⟨some [(utf8 "m", bookMax)], []⟩
    ∧ (-1 : Int) ≤ bookMax.Copies
    ∧ (Catalog.SubCopies ⟨some [(utf8 "m", bookMax)], []⟩ (utf8 "m") (-1)).map (fun r => r.2)
        = some (minInt, none)
    ∧ minInt < 0
    ∧ OpenCatalog fsFiles (utf8 "/c") = some catalogMislabelled
    ∧ catalogMislabelled.GetCopies (utf8 "a") = (1, none)
    ∧ (catalogMislabelled.SubCopies (utf8 "a") 1).map
        (fun r => (r.2, r.1.GetCopies (utf8 "a"))) = some ((0, none), (1, none)) := by
  decide

/-- C3 (amended): when `id` is present with `c` copies in a record whose `ID`
is `id`, `n <= c` and `c - n` is no more than the largest Go int, then
`SubCopies(id, n)` returns `(c - n, nil)`, `c - n >= 0`, and `GetCopies(id)`
returns `c - n` afterwards. -/
theorem subCopies_ok (catalog : Catalog) (id : GoString) (book : Book) (n : Int)
    (hget : mapGet catalog.entries id = some book) (hid : book.ID = id)
    (hn : n ≤ book.Copies) (hov : book.Copies - n ≤ maxInt) :
    ∃ next, catalog.SubCopies id n = some (next, book.Copies - n, none)
      ∧ 0 ≤ book.Copies - n
      ∧ next.GetCopies id = (book.Copies - n, none) := by
  have hlt : ¬ book.Copies < n := not_lt.mpr hn
  have hr : InRange (book.Copies - n) := by
    unfold InRange minInt; unfold maxInt at hov ⊢; omega
  obtain ⟨data, hdata, _⟩ := data_of_mapGet hget
  refine ⟨⟨some (mapSet data id { book with Copies := book.Copies - n }), catalog.Path⟩,
    ?_, by omega, ?_⟩
  · simp [Catalog.SubCopies, hget, hlt, wrapInt_eq_self hr, assign_of_data hdata, hid]
  · simp [Catalog.GetCopies, Catalog.entries, mapGet_mapSet_self]

/-- C3 (amended), at the catalog of the tests: all the stock is subtracted. -/
theorem subCopies_ok_witness :
    mapGet catalogABC.entries (utf8 "abc") = some bookABC ∧ bookABC.ID = utf8 "abc"
    ∧ (1 : Int) ≤ bookABC.Copies ∧ bookABC.Copies - 1 ≤ maxInt
    ∧ ∃ next, catalogABC.SubCopies (utf8 "abc") 1 = some (next, bookABC.Copies - 1, none)
      ∧ 0 ≤ bookABC.Copies - 1
      ∧ next.GetCopies (utf8 "abc") = (bookABC.Copies - 1, none) :=
  ⟨by decide, by decide, by decide, by decide,
    subCopies_ok catalogABC (utf8 "abc") bookABC 1 (by decide) (by decide) (by decide)
      (by decide)⟩

set_option maxRecDepth 100000 in
/-- C4, as stated, fails: `OpenCatalog` on a file that holds the JSON value
`null` returns a catalog whose map is nil, and `AddBook` on it panics at the
assignment to the map. -/
theorem addBook_counterexample :
    OpenCatalog fsFiles (utf8 "/n") = some catalogNil
    ∧ mapGet catalogNil.entries bookABC.ID = none
    ∧ catalogNil.AddBook bookABC = none := by
  decide

/-- C4 (amended): when the map of the catalog is allocated and `book.ID` is
not in it, `AddBook(book)` returns no error and `GetBook(book.ID)` then returns
`(book, true)`. -/
theorem addBook_then_getBook (catalog : Catalog) (book : Book)
    (hdata : catalog.data ≠ none) (hget : mapGet catalog.entries book.ID = none) :
    ∃ next, catalog.AddBook book = some (next, none)
      ∧ next.GetBook book.ID = (book, true) := by
  cases hd : catalog.data with
  | none => exact absurd hd hdata
  | some data =>
    refine ⟨⟨some (mapSet data book.ID book), catalog.Path⟩, ?_, ?_⟩
    · simp [Catalog.AddBook, hget, assign_of_data hd]
    · simp [Catalog.GetBook, Catalog.entries, mapGet_mapSet_self]

/-- C4 (amended), at the empty catalog and the book `abc`. -/
theorem addBook_then_getBook_witness :
    NewCatalog.data ≠ none ∧ mapGet NewCatalog.entries bookABC.ID = none
    ∧ ∃ next, NewCatalog.AddBook bookABC = some (next, none)
      ∧ next.GetBook bookABC.ID = (bookABC, true) :=
  ⟨by decide, by decide, addBook_then_getBook NewCatalog bookABC (by decide) (by decide)⟩

/-- C5: when `book.ID` is already in the catalog, `AddBook(book)` returns the
already-exists error and the catalog itself, so that `GetBook(book.ID)` returns
the record stored before and no record changes. -/
theorem addBook_duplicate (catalog : Catalog) (book old : Book)
    (hget : mapGet catalog.entries book.ID = some old) :
    catalog.AddBook book = some (catalog, some (.alreadyExists book.ID))
    ∧ catalog.GetBook book.ID = (old, true) := by
  simp [Catalog.AddBook, Catalog.GetBook, hget]

/-- C5, at the catalog of the tests and another book with identifier `abc`. -/
theorem addBook_duplicate_witness :
    mapGet catalogABC.entries bookEmma.ID = some bookABC
    ∧ catalogABC.AddBook bookEmma = some (catalogABC, some (.alreadyExists bookEmma.ID))
    ∧ catalogABC.GetBook bookEmma.ID = (bookABC, true) :=
  ⟨by decide, addBook_duplicate catalogABC bookEmma bookABC (by decide)⟩

set_option maxRecDepth 100000 in
/-- C6, as stated, fails: in the catalog opened from a file whose member `a`
holds a book with `ID` `x`, `SetCopies("a", 5)` returns no error and
`GetCopies("a")` still returns 1. -/
theorem setCopies_counterexample :
    OpenCatalog fsFiles (utf8 "/c") = some catalogMislabelled
    ∧ catalogMislabelled.GetCopies (utf8 "a") = (1, none)
    ∧ (catalogMislabelled.SetCopies (utf8 "a") 5).map
        (fun r => (r.2, r.1.GetCopies (utf8 "a"))) = some (none, (1, none)) := by
  decide

/-- C6 (amended): for `id` present, when the record under `id` has `ID` equal
to `id`, `SetCopies(id, n)` with `n >= 0` returns no error and `GetCopies(id)`
then returns `n`; `SetCopies(id, n)` with `n < 0` returns an error and leaves
the catalog, hence `GetCopies(id)`, unchanged. -/
theorem setCopies_then_getCopies (catalog : Catalog) (id : GoString) (book : Book)
    (hget : mapGet catalog.entries id = some book) :
    (book.ID = id → ∀ n : Int, 0 ≤ n →
      ∃ next, catalog.SetCopies id n = some (next, none)
        ∧ next.GetCopies id = (n, none))
    ∧ (∀ n : Int, n < 0 →
      ∃ next err, catalog.SetCopies id n = some (next, some err)
        ∧ next = catalog ∧ next.GetCopies id = catalog.GetCopies id) := by
  obtain ⟨data, hdata, _⟩ := data_of_mapGet hget
  constructor
  · intro hid n hn
    have hlt : ¬ n < 0 := not_lt.mpr hn
    refine ⟨⟨some (mapSet data id { book with Copies := n }), catalog.Path⟩, ?_, ?_⟩
    · simp [Catalog.SetCopies, Book.SetCopies, hget, hlt, hid, assign_of_data hdata]
    · simp [Catalog.GetCopies, Catalog.entries, mapGet_mapSet_self]
  · intro n hn
    exact ⟨catalog, .negativeCopies n, by simp [Catalog.SetCopies, Book.SetCopies, hget, hn],
      rfl, rfl⟩

/-- C6 (amended), at the catalog of the tests, with 2 and with -1. -/
theorem setCopies_then_getCopies_witness :
    mapGet catalogABC.entries (utf8 "abc") = some bookABC ∧ bookABC.ID = utf8 "abc"
    ∧ (∃ next, catalogABC.SetCopies (utf8 "abc") 2 = some (next, none)
        ∧ next.GetCopies (utf8 "abc") = (2, none))
    ∧ (∃ next err, catalogABC.SetCopies (utf8 "abc") (-1) = some (next, some err)
        ∧ next = catalogABC
        ∧ next.GetCopies (utf8 "abc") = catalogABC.GetCopies (utf8 "abc")) :=
  ⟨by decide, by decide,
    (setCopies_then_getCopies catalogABC (utf8 "abc") bookABC (by decide)).1 (by decide) 2
      (by decide),
    (setCopies_then_getCopies catalogABC (utf8 "abc") bookABC (by decide)).2 (-1)
      (by decide)⟩

set_option maxRecDepth 100000 in
/-- C7, as stated, fails three times. With -1 copies stored, `AddCopies(id, 0)`
succeeds and `SubCopies(id, 0)` then fails for lack of stock. With `maxInt`
copies stored, `AddCopies(id, 1)` wraps to `minInt` and `SubCopies(id, 1)` then
fails, the count staying `minInt`. In the catalog opened from a file whose
member `a` holds a book with `ID` `x`, `AddCopies("a", 2)` returns 3 and
`SubCopies("a", 2)` then fails, one copy being stored under `a`. -/
theorem addCopies_subCopies_counterexample :
    NewCatalog.run [.addBook bookNegative] = some ⟨some [(utf8 "n", bookNegative)], []⟩
    ∧ ((Catalog.AddCopies ⟨some [(utf8 "n", bookNegative)], []⟩ (utf8 "n") 0).bind
        (fun r => (r.1.SubCopies (utf8 "n") 0).map (fun q => (r.2, q.2))))
        = some ((-1, none), (0, some (.notEnoughStock (-1))))
    ∧ NewCatalog.run [.addBook bookMax] = some ⟨some [(utf8 "m", bookMax)], []⟩
    ∧ ((Catalog.AddCopies ⟨some [(utf8 "m", bookMax)], []⟩ (utf8 "m") 1).bind
        (fun r => (r.1.SubCopies (utf8 "m") 1).map (fun q => (r.2, q.2))))
        = some ((minInt, none), (0, some (.notEnoughStock minInt)))
    ∧ OpenCatalog fsFiles (utf8 "/c") = some catalogMislabelled
    ∧ ((catalogMislabelled.AddCopies (utf8 "a") 2).bind
        (fun r => (r.1.SubCopies (utf8 "a") 2).map (fun q => (r.2, q.2))))
        = some ((3, none), (0, some (.notEnoughStock 1))) := by
  decide

/-- C7 (amended): when `id` is present in a record whose `ID` is `id`, with a
stored count `c` that is a non-negative Go int, and `a` is a Go int with
`c + a` no more than the largest Go int, then `AddCopies(id, a)` followed by
`SubCopies(id, a)` succeeds and returns `c`, and `GetCopies(id)` then returns
`c`. -/
theorem addCopies_subCopies_roundtrip (catalog : Catalog) (id : GoString) (book : Book)
    (a : Int) (hget : mapGet catalog.entries id = some book) (hid : book.ID = id)
    (hc : 0 ≤ book.Copies ∧ book.Copies ≤ maxInt) (ha : InRange a)
    (hov : book.Copies + a ≤ maxInt) :
    ∃ mid last, catalog.AddCopies id a = some (mid, book.Copies + a, none)
      ∧ mid.SubCopies id a = some (last, book.Copies, none)
      ∧ last.GetCopies id = (book.Copies, none) := by
  have hr : InRange (book.Copies + a) := by
    unfold InRange minInt at ha ⊢; unfold maxInt at hov hc ha ⊢; omega
  have hr2 : InRange book.Copies := by
    unfold InRange minInt; unfold maxInt at hc ⊢; omega
  have hlt : ¬ book.Copies + a < a := by omega
  obtain ⟨data, hdata, _⟩ := data_of_mapGet hget
  subst hid
  refine ⟨⟨some (mapSet data book.ID { book with Copies := book.Copies + a }), catalog.Path⟩,
    ⟨some (mapSet (mapSet data book.ID { book with Copies := book.Copies + a }) book.ID book),
      catalog.Path⟩, ?_, ?_, ?_⟩
  · simp [Catalog.AddCopies, hget, wrapInt_eq_self hr, assign_of_data hdata]
  · simp [Catalog.SubCopies, Catalog.entries, Catalog.assign, mapGet_mapSet_self, hlt,
      wrapInt_eq_self hr2]
  · simp [Catalog.GetCopies, Catalog.entries, mapGet_mapSet_self]

/-- C7 (amended), at the catalog of the tests and 2 copies. -/
theorem addCopies_subCopies_roundtrip_witness :
    mapGet catalogABC.entries (utf8 "abc") = some bookABC ∧ bookABC.ID = utf8 "abc"
    ∧ (0 ≤ bookABC.Copies ∧ bookABC.Copies ≤ maxInt) ∧ InRange 2
    ∧ bookABC.Copies + 2 ≤ maxInt
    ∧ ∃ mid last, catalogABC.AddCopies (utf8 "abc") 2 = some (mid, bookABC.Copies + 2, none)
      ∧ mid.SubCopies (utf8 "abc") 2 = some (last, bookABC.Copies, none)
      ∧ last.GetCopies (utf8 "abc") = (bookABC.Copies, none) :=
  ⟨by decide, by decide, by decide, by decide, by decide,
    addCopies_subCopies_roundtrip catalogABC (utf8 "abc") bookABC 2 (by decide) (by decide)
      (by decide) (by decide) (by decide)⟩

set_option maxRecDepth 100000 in
/-- C8, as stated, fails. In the catalog opened from a file whose member `a`
holds a book with `ID` `x` and one copy, `AddCopies("a", 2)` returns `(3, nil)`
and `GetCopies("a")` then returns 1. And with `maxInt` copies stored,
`AddCopies(id, 1)` returns `minInt`, which is not the integer `maxInt + 1`. -/
theorem addCopies_counterexample :
    OpenCatalog fsFiles (utf8 "/c") = some catalogMislabelled
    ∧ catalogMislabelled.GetCopies (utf8 "a") = (1, none)
    ∧ (catalogMislabelled.AddCopies (utf8 "a") 2).map
        (fun r => (r.2, r.1.GetCopies (utf8 "a"))) = some ((3, none), (1, none))
    ∧ NewCatalog.run [.addBook bookMax] = some ⟨some [(utf8 "m", bookMax)], []⟩
    ∧ (Catalog.AddCopies ⟨some [(utf8 "m", bookMax)], []⟩ (utf8 "m") 1).map (fun r => r.2)
        = some (minInt, none)
    ∧ minInt ≠ bookMax.Copies + 1 := by
  decide

/-- C8 (amended): when `id` is present with `c` copies in a record whose `ID`
is `id`, `AddCopies(id, n)` returns, for every `n` of either sign and without
any bound check, no error and the Go sum of `c` and `n`, which is `c + n`
whenever `c + n` is a Go int (and wraps around otherwise); `GetCopies(id)` then
returns the same count. -/
theorem addCopies_then_getCopies (catalog : Catalog) (id : GoString) (book : Book)
    (n : Int) (hget : mapGet catalog.entries id = some book) (hid : book.ID = id) :
    ∃ next, catalog.AddCopies id n = some (next, wrapInt (book.Copies + n), none)
      ∧ next.GetCopies id = (wrapInt (book.Copies + n), none)
      ∧ (InRange (book.Copies + n) → wrapInt (book.Copies + n) = book.Copies + n) := by
  obtain ⟨data, hdata, _⟩ := data_of_mapGet hget
  refine ⟨⟨some (mapSet data id { book with Copies := wrapInt (book.Copies + n) }),
    catalog.Path⟩, ?_, ?_, fun h => wrapInt_eq_self h⟩
  · simp [Catalog.AddCopies, hget, assign_of_data hdata, hid]
  · simp [Catalog.GetCopies, Catalog.entries, mapGet_mapSet_self]

/-- C8 (amended), at the catalog of the tests: two copies added to one. -/
theorem addCopies_then_getCopies_witness :
    mapGet catalogABC.entries (utf8 "abc") = some bookABC ∧ bookABC.ID = utf8 "abc"
    ∧ ∃ next, catalogABC.AddCopies (utf8 "abc") 2
        = some (next, wrapInt (bookABC.Copies + 2), none)
      ∧ next.GetCopies (utf8 "abc") = (wrapInt (bookABC.Copies + 2), none)
      ∧ (InRange (bookABC.Copies + 2) → wrapInt (bookABC.Copies + 2) = bookABC.Copies + 2) :=
  ⟨by decide, by decide,
    addCopies_then_getCopies catalogABC (utf8 "abc") bookABC 2 (by decide) (by decide)⟩

/-- C9: when `id` is not in the catalog, `GetCopies`, `AddCopies`, `SubCopies`
and `SetCopies` return the not-found error for every `n` (also `SetCopies` with
`n < 0`), the count 0 where a count is returned, and the catalog itself, in
which `id` is still absent. -/
theorem not_found (catalog : Catalog) (id : GoString)
    (hget : mapGet catalog.entries id = none) :
    catalog.GetCopies id = (0, some (.notFound id))
    ∧ ∀ n : Int,
      catalog.AddCopies id n = some (catalog, 0, some (.notFound id))
      ∧ catalog.SubCopies id n = some (catalog, 0, some (.notFound id))
      ∧ catalog.SetCopies id n = some (catalog, some (.notFound id)) := by
  refine ⟨by simp [Catalog.GetCopies, hget], fun n => ?_⟩
  simp [Catalog.AddCopies, Catalog.SubCopies, Catalog.SetCopies, hget]

/-- C9, at the catalog of the tests and the identifier `missing`. -/
theorem not_found_witness :
    mapGet catalogABC.entries (utf8 "missing") = none
    ∧ catalogABC.GetCopies (utf8 "missing") = (0, some (.notFound (utf8 "missing")))
    ∧ ∀ n : Int,
      catalogABC.AddCopies (utf8 "missing") n
        = some (catalogABC, 0, some (.notFound (utf8 "missing")))
      ∧ catalogABC.SubCopies (utf8 "missing") n
        = some (catalogABC, 0, some (.notFound (utf8 "missing")))
      ∧ catalogABC.SetCopies (utf8 "missing") n
        = some (catalogABC, some (.notFound (utf8 "missing"))) :=
  ⟨by decide, not_found catalogABC (utf8 "missing") (by decide)⟩

/-! ## Claim C10: Sync and OpenCatalog -/

set_option maxRecDepth 100000 in
/-- C10, as stated, fails: a catalog whose only book has the title of one byte
0xFF is written by `Sync` without error and opened again by `OpenCatalog`, and
the book read back has the title U+FFFD (bytes EF BF BD), so the two results of
`GetAllBooks` differ as multisets. -/
theorem sync_openCatalog_counterexample :
    NodupKeys catalogInvalid.entries
    ∧ fsEmpty.creatable catalogInvalid.Path = true
    ∧ (catalogInvalid.Sync fsEmpty).2 = false
    ∧ OpenCatalog (catalogInvalid.Sync fsEmpty).1 catalogInvalid.Path
        = some ⟨some [(utf8 "k", ⟨utf8 "k", [0xEF, 0xBF, 0xBD], [], 1⟩)], utf8 "/c"⟩
    ∧ catalogInvalid.GetAllBooks = [⟨utf8 "k", [0xFF], [], 1⟩]
    ∧ ¬ List.Perm [(⟨utf8 "k", [0xEF, 0xBF, 0xBD], [], 1⟩ : Book)]
        catalogInvalid.GetAllBooks := by
  decide

/-- C10 (amended): for every catalog whose `Path` can be created, whose keys
are distinct (a Go map) and valid UTF-8, and whose books have valid UTF-8 in
`ID`, `Title` and `Author` and a Go int in `Copies`, `Sync()` returns no error
and `OpenCatalog(Path)` then returns a catalog with the same `Path` whose
`GetAllBooks()` is a permutation of the original one. -/
theorem sync_then_openCatalog (catalog : Catalog) (fs : FileSystem)
    (hpath : fs.creatable catalog.Path = true) (hkeys : NodupKeys catalog.entries)
    (hok : ∀ e ∈ catalog.entries, EntryOK e) :
    (catalog.Sync fs).2 = false
    ∧ ∃ opened, OpenCatalog (catalog.Sync fs).1 catalog.Path = some opened
        ∧ opened.Path = catalog.Path
        ∧ List.Perm opened.GetAllBooks catalog.GetAllBooks := by
  refine ⟨by simp [Catalog.Sync, hpath], ?_⟩
  cases hd : catalog.data with
  | none =>
    refine ⟨⟨none, catalog.Path⟩, ?_, rfl, ?_⟩
    · simp [OpenCatalog, Catalog.Sync, hpath, NewCatalog, hd, decodeData_encodeData_nil]
    · simp [Catalog.GetAllBooks, Catalog.entries, hd]
  | some data =>
    have hent := entries_of_data hd
    rw [hent] at hkeys hok
    refine ⟨⟨some (sortEntries data), catalog.Path⟩, ?_, rfl, ?_⟩
    · simp [OpenCatalog, Catalog.Sync, hpath, NewCatalog, hd,
        decodeData_encodeData data hkeys hok]
    · simp only [Catalog.GetAllBooks, hent]
      exact (sortEntries_perm data).map Prod.snd

set_option maxRecDepth 100000 in
/-- C10 (amended), at a catalog of two books whose texts hold characters that
are escaped and characters of two and three bytes. -/
theorem sync_then_openCatalog_witness :
    fsEmpty.creatable catalogTwo.Path = true ∧ NodupKeys catalogTwo.entries
    ∧ (∀ e ∈ catalogTwo.entries, EntryOK e)
    ∧ (catalogTwo.Sync fsEmpty).2 = false
    ∧ ∃ opened, OpenCatalog (catalogTwo.Sync fsEmpty).1 catalogTwo.Path = some opened
        ∧ opened.Path = catalogTwo.Path
        ∧ List.Perm opened.GetAllBooks catalogTwo.GetAllBooks :=
  ⟨by decide, by decide, by decide,
    sync_then_openCatalog catalogTwo fsEmpty (by decide) (by decide) (by decide)⟩


/-! ## Claims C11 to C15, C19 and C20: books, keys and frames -/

set_option maxRecDepth 100000 in
/-- C11, as stated, fails: `OpenCatalog` on a file whose members `a` and `b`
both hold a book with `ID` `x` returns a catalog whose `GetAllBooks()` has two
books with `ID` `x`; and in the catalog opened from a file whose member `a`
holds a book with `ID` `x`, `AddBook` of another book with `ID` `x` succeeds. -/
theorem ids_counterexample :
    OpenCatalog fsTwins (utf8 "/d") = some catalogTwins
    ∧ catalogTwins.ids = [utf8 "x", utf8 "x"]
    ∧ ¬ catalogTwins.ids.Nodup
    ∧ OpenCatalog fsFiles (utf8 "/c") = some catalogMislabelled
    ∧ (catalogMislabelled.AddBook ⟨utf8 "x", [], [], 0⟩).map (fun r => (r.2, r.1.ids))
        = some (none, [utf8 "x", utf8 "x"]) := by
  decide

/-- C11 (amended): from a catalog built through the public interface whose
entries are stored under the `ID` of their book (`NewCatalog()` is one; so is
a catalog opened from a file in which every key is the `ID` of its record),
every sequence of calls gives a catalog whose entries are stored under their
`ID` and in which no two books returned by `GetAllBooks()` share an `ID`; the
sequence runs without panic when the map is allocated. -/
theorem ids_distinct (catalog : Catalog) (ops : List Op) (hb : Built catalog)
    (hid : KeyedByID catalog.entries) :
    (∀ result, catalog.run ops = some result →
      KeyedByID result.entries ∧ result.ids.Nodup)
    ∧ (catalog.data ≠ none → ∃ result, catalog.run ops = some result) := by
  constructor
  · intro result hrun
    have h := run_keeps_keys ops catalog result hrun
    refine ⟨h.2 hid, ?_⟩
    unfold Catalog.ids Catalog.GetAllBooks
    rw [ids_eq_keys (h.2 hid)]
    exact h.1 (nodupKeys_of_built hb)
  · intro hdata
    cases hd : catalog.data with
    | none => exact absurd hd hdata
    | some data => exact run_of_data ops catalog ⟨data, hd⟩

/-- C11 (amended), at `NewCatalog()` and the two calls that build the catalog
of the tests. -/
theorem ids_distinct_witness :
    Built NewCatalog ∧ KeyedByID NewCatalog.entries
    ∧ NewCatalog.run [.addBook bookABC, .addBook bookXYZ] = some catalogTest
    ∧ KeyedByID catalogTest.entries ∧ catalogTest.ids.Nodup :=
  ⟨Built.new, by decide, by decide,
    (ids_distinct NewCatalog [.addBook bookABC, .addBook bookXYZ] Built.new (by decide)).1
      catalogTest (by decide)⟩

/-- C12: `Book.SetCopies(n)` returns an error exactly when `n < 0`; on error
the receiver is unchanged; on success its `Copies` is `n` and its `ID`,
`Title` and `Author` are unchanged. -/
theorem book_setCopies (book : Book) (n : Int) :
    ((book.SetCopies n).2 ≠ none ↔ n < 0)
    ∧ ((book.SetCopies n).2 ≠ none → (book.SetCopies n).1 = book)
    ∧ ((book.SetCopies n).2 = none →
        (book.SetCopies n).1.Copies = n ∧ (book.SetCopies n).1.ID = book.ID
        ∧ (book.SetCopies n).1.Title = book.Title
        ∧ (book.SetCopies n).1.Author = book.Author) := by
  by_cases hn : n < 0
  · simp [Book.SetCopies, hn]
  · simp [Book.SetCopies, hn]

/-- C13: in a catalog whose map is a Go map, `GetAllBooks()` is a permutation
of the books stored under the keys of the map, one for each key, and has as
many books as the map has keys; for `NewCatalog()` it is empty. -/
theorem getAllBooks_perm (catalog : Catalog) (hk : NodupKeys catalog.entries) :
    List.Perm catalog.GetAllBooks
      ((catalog.entries.map Prod.fst).filterMap (mapGet catalog.entries))
    ∧ catalog.GetAllBooks.length = (catalog.entries.map Prod.fst).length
    ∧ NewCatalog.GetAllBooks = [] := by
  refine ⟨?_, by simp [Catalog.GetAllBooks], rfl⟩
  have key : ∀ l : List (GoString × Book), (∀ kb ∈ l, kb ∈ catalog.entries) →
      (l.map Prod.fst).filterMap (mapGet catalog.entries) = l.map Prod.snd := by
    intro l
    induction l with
    | nil => intro _; rfl
    | cons kb rest ih =>
      intro hsub
      have hmem : (kb.1, kb.2) ∈ catalog.entries := hsub kb (List.mem_cons_self _ _)
      have hget := (mapGet_eq_some_iff hk kb.1 kb.2).mpr hmem
      simp only [List.map_cons, List.filterMap_cons, hget]
      rw [ih (fun x hx => hsub x (List.mem_cons_of_mem _ hx))]
  unfold Catalog.GetAllBooks
  rw [key catalog.entries (fun _ h => h)]

/-- C13, at the catalog of the tests. -/
theorem getAllBooks_perm_witness :
    NodupKeys catalogTest.entries
    ∧ List.Perm catalogTest.GetAllBooks
      ((catalogTest.entries.map Prod.fst).filterMap (mapGet catalogTest.entries))
    ∧ catalogTest.GetAllBooks.length = (catalogTest.entries.map Prod.fst).length
    ∧ NewCatalog.GetAllBooks = [] :=
  ⟨by decide, getAllBooks_perm catalogTest (by decide)⟩

/-- C14: `GetBook(id)` returns the zero value `Book{}`, whose strings are
empty and whose `Copies` is 0, and `false` when `id` is not a key of the map,
and a book stored under `id` and `true` when it is; it returns no error and
does not panic, also on a nil map. -/
theorem getBook_found_or_zero (catalog : Catalog) (id : GoString) :
    (id ∉ catalog.entries.map Prod.fst → catalog.GetBook id = (Book.zero, false))
    ∧ (id ∈ catalog.entries.map Prod.fst →
        ∃ book, (id, book) ∈ catalog.entries ∧ catalog.GetBook id = (book, true))
    ∧ Book.zero = ⟨[], [], [], 0⟩
    ∧ (∀ book, mapGet catalog.entries id = some book → catalog.GetBook id = (book, true)) := by
  refine ⟨?_, ?_, rfl, ?_⟩
  · intro h
    simp [Catalog.GetBook, mapGet_eq_none_of_not_mem h]
  · intro h
    obtain ⟨book, hb⟩ := mapGet_isSome_of_mem h
    exact ⟨book, mem_of_mapGet hb, by simp [Catalog.GetBook, hb]⟩
  · intro book hb
    simp [Catalog.GetBook, hb]

set_option maxRecDepth 100000 in
/-- C19, as stated, fails: in the catalog opened from a file whose member `a`
holds a book with `ID` `x`, `AddCopies("a", 2)` succeeds and returns 3; after
it the map has the new key `x`, and the record under `a` still has one copy. -/
theorem frame_counterexample :
    OpenCatalog fsFiles (utf8 "/c") = some catalogMislabelled
    ∧ catalogMislabelled.entries.map Prod.fst = [utf8 "a"]
    ∧ (catalogMislabelled.AddCopies (utf8 "a") 2).map
        (fun r => (r.2, r.1.entries.map Prod.fst, r.1.GetCopies (utf8 "a")))
        = some ((3, none), [utf8 "a", utf8 "x"], (1, none)) := by
  decide

/-- C19 (amended): when the record stored under `id` has `ID` equal to `id`
(as in every catalog built from `NewCatalog()`), a successful
`AddCopies(id, n)`, `SubCopies(id, n)` or `SetCopies(id, n)` leaves the keys of
the map, the records under the other keys, and the `ID`, `Title` and `Author`
of the record under `id` unchanged. -/
theorem only_copies_changed (catalog : Catalog) (id : GoString) (book : Book)
    (hget : mapGet catalog.entries id = some book) (hid : book.ID = id) (n : Int) :
    (∀ next count, catalog.AddCopies id n = some (next, count, none) →
      OnlyCopiesChanged catalog next id book)
    ∧ (∀ next count, catalog.SubCopies id n = some (next, count, none) →
      OnlyCopiesChanged catalog next id book)
    ∧ (∀ next, catalog.SetCopies id n = some (next, none) →
      OnlyCopiesChanged catalog next id book) := by
  obtain ⟨data, hdata, hget'⟩ := data_of_mapGet hget
  have hent := entries_of_data hdata
  have frame : ∀ (next : Catalog) (stored : Book), stored.ID = book.ID →
      stored.Title = book.Title → stored.Author = book.Author →
      next = ⟨some (mapSet data id stored), catalog.Path⟩ →
      OnlyCopiesChanged catalog next id book := by
    intro next stored h1 h2 h3 hnext
    subst hnext
    refine ⟨?_, ?_, stored, ?_, h1, h2, h3⟩
    · simp only [Catalog.entries, hdata]
      exact mapSet_keys_of_mem stored (key_mem_of_mapGet hget')
    · intro other hne
      simp only [Catalog.entries, hdata]
      exact mapGet_mapSet_ne data id other stored hne
    · simp only [Catalog.entries]
      exact mapGet_mapSet_self data id stored
  subst hid
  refine ⟨?_, ?_, ?_⟩
  · intro next count h
    simp only [Catalog.AddCopies, hget, assign_of_data hdata, Option.some.injEq,
      Prod.mk.injEq, and_true] at h
    exact frame next _ (by rfl) (by rfl) (by rfl) h.1.symm
  · intro next count h
    by_cases hlt : book.Copies < n
    · simp [Catalog.SubCopies, hget, hlt] at h
    · simp only [Catalog.SubCopies, hget, hlt, if_false, assign_of_data hdata,
        Option.some.injEq, Prod.mk.injEq, and_true] at h
      exact frame next _ (by rfl) (by rfl) (by rfl) h.1.symm
  · intro next h
    by_cases hlt : n < 0
    · simp [Catalog.SetCopies, Book.SetCopies, hget, hlt] at h
    · simp only [Catalog.SetCopies, Book.SetCopies, hget, hlt, if_false,
        assign_of_data hdata, Option.some.injEq, Prod.mk.injEq, and_true] at h
      exact frame next _ (by rfl) (by rfl) (by rfl) h.symm

/-- C19 (amended), at the catalog of the tests: two copies added to `abc`. -/
theorem only_copies_changed_witness :
    mapGet catalogTest.entries (utf8 "abc") = some bookABC ∧ bookABC.ID = utf8 "abc"
    ∧ catalogTest.AddCopies (utf8 "abc") 2
        = some (⟨some [(utf8 "abc", { bookABC with Copies := 3 }), (utf8 "xyz", bookXYZ)], []⟩,
            3, none)
    ∧ OnlyCopiesChanged catalogTest
        ⟨some [(utf8 "abc", { bookABC with Copies := 3 }), (utf8 "xyz", bookXYZ)], []⟩
        (utf8 "abc") bookABC :=
  ⟨by decide, by decide, by decide,
    (only_copies_changed catalogTest (utf8 "abc") bookABC (by decide) (by decide) 2).1 _ 3
      (by decide)⟩

/-- C20: every sequence of `AddBook`, `AddCopies`, `SubCopies` and `SetCopies`
calls from `NewCatalog()` runs without panic and gives a catalog in which every
entry is stored under the `ID` of its book, so that a book found by
`GetBook(id)` has `ID` equal to `id`. -/
theorem keyed_by_id (ops : List Op) :
    ∃ result, NewCatalog.run ops = some result
      ∧ KeyedByID result.entries
      ∧ ∀ id book, result.GetBook id = (book, true) → book.ID = id := by
  obtain ⟨result, hrun⟩ := run_of_data ops NewCatalog ⟨[], rfl⟩
  have hkeyed : KeyedByID result.entries :=
    (run_keeps_keys ops NewCatalog result hrun).2 (by decide)
  refine ⟨result, hrun, hkeyed, ?_⟩
  intro id book hgb
  unfold Catalog.GetBook at hgb
  cases hg : mapGet result.entries id with
  | none => simp [hg] at hgb
  | some found =>
    simp only [hg, Prod.mk.injEq, and_true] at hgb
    subst hgb
    exact (hkeyed (id, found) (mem_of_mapGet hg)).symm


/-! ## Claims C16 and C18: the client and the text of a book -/

set_option maxRecDepth 100000 in
/-- C16, as stated, fails: for status 200 and the body `"x"` (a JSON string
where an int is expected) `GetCopies` returns 0 and the error whose message is
the text of the decoder followed by ` in "\"x\""`, in which the body is
escaped: the message does not contain the raw body. -/
theorem client_counterexample :
    Client.GetCopies (serverOf 200 (utf8 "\"x\"")) unmarshalIntSample (NewClient (utf8 "h"))
        (utf8 "abc") = (0, some (.decode typeErrorText (utf8 "\"x\"")))
    ∧ (ClientError.decode typeErrorText (utf8 "\"x\"")).Error isPrintSample
        = typeErrorText ++ utf8 " in \"\\\"x\\\"\""
    ∧ ¬ List.IsInfix (utf8 "\"x\"")
        ((ClientError.decode typeErrorText (utf8 "\"x\"")).Error isPrintSample) := by
  decide

/-- C16 (amended): when `http.Get` gives a response, `MakeAPIRequest` returns
the not-found error for status 404 whatever the body; for any other status
than 200 the error with message `unexpected status` and the status code in
decimal; for status 200 and a body that `json.Unmarshal` refuses the error
whose message is the text of the decoder, ` in ` and the body quoted in Go
syntax (`%q`), which is the raw body between double quotes when the body is
made of printable ASCII other than the double quote and the backslash; for
status 200 and a body that is decoded no error and the decoded value. On every
error `GetCopies`, `AddCopies` and `SubCopies` of the client return 0 and
`GetBook` returns `Book{}`. -/
theorem client_make_api_request {α : Type} (isPrint : Nat → Bool)
    (httpGet : GoString → Except GoString Response)
    (unmarshal : List Byte → α → α × Option GoString) (client : Client) (uri : GoString)
    (result : α) (resp : Response) (hget : httpGet (client.url uri) = .ok resp) :
    (resp.StatusCode = 404 →
      client.MakeAPIRequest httpGet unmarshal uri result = (result, some .notFound)
      ∧ ClientError.notFound.Error isPrint = utf8 "not found")
    ∧ (resp.StatusCode ≠ 404 → resp.StatusCode ≠ 200 →
      client.MakeAPIRequest httpGet unmarshal uri result
        = (result, some (.unexpectedStatus resp.StatusCode))
      ∧ (ClientError.unexpectedStatus resp.StatusCode).Error isPrint
        = utf8 "unexpected status " ++ appendInt resp.StatusCode)
    ∧ (∀ data value text, resp.StatusCode = 200 → resp.Body = .ok data →
      unmarshal data result = (value, some text) →
      client.MakeAPIRequest httpGet unmarshal uri result = (value, some (.decode text data))
      ∧ (ClientError.decode text data).Error isPrint = text ++ utf8 " in " ++ quote isPrint data
      ∧ ((∀ b ∈ data, isPlain b = true) → quote isPrint data = 0x22 :: (data ++ [0x22])))
    ∧ (∀ data value, resp.StatusCode = 200 → resp.Body = .ok data →
      unmarshal data result = (value, none) →
      client.MakeAPIRequest httpGet unmarshal uri result = (value, none))
    ∧ (∀ (get : GoString → Except GoString Response)
        (decodeInt : List Byte → Int → Int × Option GoString) (c : Client) (id : GoString)
        (n : Int),
      ((c.GetCopies get decodeInt id).2 ≠ none → (c.GetCopies get decodeInt id).1 = 0)
      ∧ ((c.AddCopies get decodeInt id n).2 ≠ none → (c.AddCopies get decodeInt id n).1 = 0)
      ∧ ((c.SubCopies get decodeInt id n).2 ≠ none → (c.SubCopies get decodeInt id n).1 = 0))
    ∧ (∀ (get : GoString → Except GoString Response)
        (decodeBook : List Byte → Book → Book × Option GoString) (c : Client) (id : GoString),
      (c.GetBook get decodeBook id).2 ≠ none → (c.GetBook get decodeBook id).1 = Book.zero) := by
  refine ⟨?_, ?_, ?_, ?_, ?_, ?_⟩
  · intro h
    exact ⟨by simp [Client.MakeAPIRequest, hget, h], rfl⟩
  · intro h1 h2
    exact ⟨by simp [Client.MakeAPIRequest, hget, h1, h2], rfl⟩
  · intro data value text h hbody hun
    refine ⟨by simp [Client.MakeAPIRequest, hget, h, hbody, hun], rfl, quote_plain isPrint data⟩
  · intro data value h hbody hun
    simp [Client.MakeAPIRequest, hget, h, hbody, hun]
  · intro get decodeInt c id n
    refine ⟨?_, ?_, ?_⟩
    · unfold Client.GetCopies
      split <;> simp
    · unfold Client.AddCopies
      split <;> simp
    · unfold Client.SubCopies
      split <;> simp
  · intro get decodeBook c id
    unfold Client.GetBook
    split <;> simp

set_option maxRecDepth 100000 in
/-- C16 (amended), at a server that answers with status 200 and the body `3`. -/
theorem client_make_api_request_witness :
    serverOf 200 (utf8 "3") ((NewClient (utf8 "h")).url (utf8 "getcopies/abc"))
      = .ok ⟨200, .ok (utf8 "3")⟩
    ∧ (NewClient (utf8 "h")).MakeAPIRequest (serverOf 200 (utf8 "3")) unmarshalIntSample
        (utf8 "getcopies/abc") 0 = (3, none) :=
  ⟨rfl,
    (client_make_api_request isPrintSample (serverOf 200 (utf8 "3")) unmarshalIntSample
      (NewClient (utf8 "h")) (utf8 "getcopies/abc") 0 ⟨200, .ok (utf8 "3")⟩ rfl).2.2.2.1
      (utf8 "3") 3 rfl rfl (by decide)⟩

/-- C18: `String()` is the title, ` by `, the author, ` (copies: `, the count in
decimal and `)`; it is the same for every `ID`; the receiver is passed by
value. The book of the test gives `Sea Room by Adam Nicolson (copies: 2)`. -/
theorem book_string (book : Book) :
    book.String = book.Title ++ utf8 " by " ++ book.Author ++ utf8 " (copies: "
        ++ appendInt book.Copies ++ utf8 ")"
    ∧ (∀ id : GoString, ({ book with ID := id } : Book).String = book.String)
    ∧ bookSeaRoom.String = utf8 "Sea Room by Adam Nicolson (copies: 2)" := by
  refine ⟨?_, ?_, by decide⟩
  · simp only [Book.String, sprintf_book]
  · intro id
    simp only [Book.String]


end Books
